import Mathlib

/-!
# Atomato: generation engine of a cellular-automaton visualiser

A shallow embedding of the algorithmic core of `core.h`, `life.h` and `rule110.c`:

* `mod`, `iter_cell`                     toroidal index arithmetic (`core.h`)
* `life_board_nbors`                     neighbour counting (`life.h`)
* `patterns`, `next_row`                 Rule 110 on a ring (`rule110.c`)
* `life_save_board_to_image`,
  `life_load_board_from_image`           the palette codec (`life.h`)
* `core_time_to_quit`,
  `core_next_gen_count`                  the generation clock (`core.h`)
* `life_go_frame`                        one pass of the simulation loop (`life.h`)

Conventions of the embedding.

* C `int` values are `Int`; `%` on them is the truncating remainder `Int.tmod`. The macro
  `mod` is embedded on the text of its argument and with 32-bit wrapping of its sums.
* `ROWS` and `COLS` are defined in headers outside these three files, so every
  definition takes them as parameters.
* `Cell` is `int8_t`; the one place where a `Cell` is incremented
  (`life_load_board_from_image`) wraps modulo `2^8`, as the conversion back to
  `int8_t` does.
* `size_t` is 64 bits wide.
* `float` is IEEE-754 binary32 and `double` is binary64, both rounding to nearest with
  ties to even. A finite value is a sign and a magnitude counted in units of `2^-1074`,
  so that every finite value of either format is a natural number of units.
* Reading an array outside its bounds has no defined result; the embedding stops with an
  explicit `fault` outcome there.
-/

set_option exponentiation.threshold 20000

namespace Atomato

/-! ## Grid geometry (`core.h`) -/

/-- Conversion of a result to `int`, wrapping modulo `2^32` (two's complement). -/
def to_int32 (x : Int) : Int := (x + 2147483648) % 4294967296 - 2147483648

/-- An argument of the macro `mod` as the preprocessor receives it, a piece of text: a
single operand (identifier, constant or parenthesised expression) with its value, or the
text `init + last` or `init - last` whose last term is a single operand (`init` is the
value of what stands before the last operator). -/
inductive MacroArg where
  | operand (v : Int)
  | plus (init last : Int)
  | minus (init last : Int)

/-- The value of the text `A % b`. The macro does not parenthesise its parameters, so for
`init + last` this is `init + last % b`, in which `%` binds to `last` alone. -/
def MacroArg.rem (A : MacroArg) (b : Int) : Int :=
  match A with
  | .operand v => Int.tmod v b
  | .plus init last => to_int32 (init + Int.tmod last b)
  | .minus init last => to_int32 (init - Int.tmod last b)

/-- The macro `#define mod(a,b) ((a % b + b) % b);` of `core.h`, on `int`: the value of
the text it expands to for the argument text `A` and the operand `b`. -/
def mod (A : MacroArg) (b : Int) : Int := Int.tmod (to_int32 (A.rem b + b)) b

/-- The text the preprocessor produces for `mod(x + y, b)`. The macro does not parenthesise
its parameters, so the result is `((x + y % b + b) % b)`, in which `%` binds to `y` alone.
It is `mod (.plus x y) b` without the conversions to `int` (`mod_plus_eq_mod_add`). -/
def mod_add (x y b : Int) : Int := Int.tmod (x + Int.tmod y b + b) b

/-- `#define iter_cell(col,row) (row*COLS + col)`. -/
def iter_cell (COLS col row : Int) : Int := row * COLS + col

/-- Conversion of an `int` to `int8_t` (the type `Cell`), wrapping modulo `2^8`. -/
def to_int8 (x : Int) : Int := (x + 128) % 256 - 128

/-! ## Board (`life.h`) -/

/-- The cell array of a `Board`, addressed by flat offset. -/
abbrev Cells := Int → Int

/-- Modelled from the spec: `rule110.c` takes `mod` from `atomato.h`, which is not among
the sources; the spec gives `wrap(a, m) = ((a mod m) + m) mod m` with the truncating
remainder, the same formula as the function kept in `core.h`. -/
def atomato_mod (a b : Int) : Int := Int.tmod (Int.tmod a b + b) b

/-- `#define PATTERN(A, B, C) ((A << 2) | (B << 1) | C)`. -/
def PATTERN (A B C : Nat) : Nat := (A <<< 2) ||| (B <<< 1) ||| C

/-- The table `patterns[1 << 3]`, entry `k` being the value stored at index `k`:
`OOO -> O, OOI -> I, OIO -> I, OII -> I, IOO -> O, IOI -> I, IIO -> I, III -> O`. -/
def patterns : List Nat := [0, 1, 1, 1, 0, 1, 1, 0]

/-- `next_row`: `next` starts zeroed and the loop stores `patterns[index]` at every `i`. -/
def next_row (COLS : Nat) (prev : List Nat) : List Nat :=
  (List.range COLS).foldl (fun next (i : Nat) =>
    let index := PATTERN (prev.getD (atomato_mod ((i : Int) - 1) COLS).toNat 0)
                         (prev.getD i 0)
                         (prev.getD (atomato_mod ((i : Int) + 1) COLS).toNat 0)
    next.set i (patterns.getD index 0)) (List.replicate COLS 0)

/-- Bit number `k` of the rule number 110 (binary `01101110`). -/
def rule110_bit (k : Nat) : Nat := (110 >>> k) % 2

/-! ## Image codec (`life.h`) -/

/-- A decoded raster image as `stbi_load` returns it: width, height, channel count and
the pixels as 32-bit words in row-major order. -/
structure Image where
  w : Nat
  h : Nat
  n : Nat
  data : List Nat
deriving DecidableEq

/-- Outcome of the palette search made for one pixel. -/
inductive Lookup where
  | found (cell : Int)
  | absent
  | fault
  | unfinished
deriving DecidableEq

/-- Outcome of `life_load_board_from_image`. `loaded` is a normal return, `unknown_color`
the `exit(1)` after the "Unknown color" message, `unreadable` the `exit(1)` when
`stbi_load` returns `NULL`, `assert_failed` a failed `assert`, and `fault` a read
outside an array. -/
inductive LoadResult where
  | loaded
  | unknown_color (color : Nat)
  | unreadable
  | assert_failed
  | fault
deriving DecidableEq

/-- The read `cells_color[i]`. -/
def palette_at (cells_color : List Nat) (i : Int) : Option Nat :=
  if i < 0 then none else cells_color.get? i.toNat

/-- The loop `for (Cell cell = 0; !found && cell < cells_count; ++cell)` started at `cell`,
with `fuel` bounding the number of iterations. The loop variable is an `int8_t`. -/
def search_palette (cells_color : List Nat) (cells_count : Int) (color : Nat) :
    Nat → Int → Lookup
  | 0, _ => .unfinished
  | fuel + 1, cell =>
    if cell < cells_count then
      match palette_at cells_color cell with
      | none => .fault
      | some c =>
        if c = color then .found cell
        else search_palette cells_color cells_count color fuel (to_int8 (cell + 1))
    else .absent

/-- The body of the `col` loop of `life_load_board_from_image` for the columns `cols` of
one `row`. The palette search gets 256 iterations, one per value of an `int8_t`. -/
def load_row (COLS w : Nat) (data : List Nat) (cells_count : Int) (cells_color : List Nat)
    (row : Nat) : List Nat → Cells → LoadResult × Cells
  | [], board => (.loaded, board)
  | col :: cols, board =>
    match data.get? (row * w + col) with
    | none => (.fault, board)
    | some color =>
      match search_palette cells_color cells_count color 256 0 with
      | .found cell =>
        load_row COLS w data cells_count cells_color row cols
          (Function.update board (iter_cell COLS col row) cell)
      | .absent => (.unknown_color color, board)
      | _ => (.fault, board)

/-- The `row` loop of `life_load_board_from_image` for the rows `rows`. -/
def load_rows (COLS w : Nat) (data : List Nat) (cells_count : Int) (cells_color : List Nat) :
    List Nat → Cells → LoadResult × Cells
  | [], board => (.loaded, board)
  | row :: rows, board =>
    match load_row COLS w data cells_count cells_color row (List.range COLS) board with
    | (.loaded, board1) => load_rows COLS w data cells_count cells_color rows board1
    | stopped => stopped

/-- `life_load_board_from_image`, given what `stbi_load` produced for the file (`none` for
`NULL`). Returns the outcome and the contents of `board->cells` at that point. -/
def life_load_board_from_image (ROWS COLS : Nat) (board : Cells) (file : Option Image)
    (cells_count : Int) (cells_color : List Nat) : LoadResult × Cells :=
  match file with
  | none => (.unreadable, board)
  | some img =>
    if img.n = 4 ∧ COLS ≥ img.w ∧ ROWS ≥ img.h then
      load_rows COLS img.w img.data cells_count cells_color (List.range ROWS) board
    else (.assert_failed, board)

/-- The `col` loop of `life_save_board_to_image` for one `row`: the pixels
`data[row][col]`, or `none` when a cell state indexes outside the palette. -/
def save_row (COLS : Nat) (board : Cells) (cells_color : List Nat) (row : Nat) :
    List Nat → Option (List Nat)
  | [] => some []
  | col :: cols =>
    match palette_at cells_color (board (iter_cell COLS col row)),
          save_row COLS board cells_color row cols with
    | some c, some rest => some (c :: rest)
    | _, _ => none

/-- The `row` loop of `life_save_board_to_image`: the array `data[ROWS][COLS]` laid out
in memory order. -/
def save_rows (COLS : Nat) (board : Cells) (cells_color : List Nat) :
    List Nat → Option (List Nat)
  | [] => some []
  | row :: rows =>
    match save_row COLS board cells_color row (List.range COLS),
          save_rows COLS board cells_color rows with
    | some line, some rest => some (line ++ rest)
    | _, _ => none

/-- `life_save_board_to_image`: the `COLS x ROWS` four-channel image handed to
`stbi_write_png`. Writing the file is outside the embedding. -/
def life_save_board_to_image (ROWS COLS : Nat) (board : Cells) (_cells_count : Int)
    (cells_color : List Nat) : Option Image :=
  match save_rows COLS board cells_color (List.range ROWS) with
  | some data => some { w := COLS, h := ROWS, n := 4, data := data }
  | none => none

/-- The two loops of `life_load_board_from_image` seen as one pass over the pixels in
memory order, the pixel at position `j` of `pixels` going to flat cell `k + j`. It is the
form the loops take when the image is as wide as the board (`load_rows_eq_load_list`). -/
def load_list (cells_count : Int) (cells_color : List Nat) :
    Nat → List Nat → Cells → LoadResult × Cells
  | _, [], board => (.loaded, board)
  | k, color :: rest, board =>
    match search_palette cells_color cells_count color 256 0 with
    | .found cell =>
      load_list cells_count cells_color (k + 1) rest (Function.update board (k : Int) cell)
    | .absent => (.unknown_color color, board)
    | _ => (.fault, board)

/-- The pixel that `life_save_board_to_image` stores for flat cell `i` (0 when the state
indexes outside the palette, where the save has no defined result). -/
def saved_pixel (board : Cells) (cells_color : List Nat) (i : Nat) : Nat :=
  (palette_at cells_color (board (i : Int))).getD 0

/-- State `s` is the first palette index holding its colour: no earlier entry equals
`cells_color[s]`. It holds of every index of a palette whose colours are pairwise
distinct (`first_entry_of_nodup`). -/
def first_entry (cells_color : List Nat) (s : Nat) : Prop :=
  ∀ j < s, cells_color[j]? ≠ cells_color[s]?

/-- A board whose every cell is in state 1. -/
def ones_board : Cells := fun _ => 1

/-- A board whose every cell is in state 0. -/
def zeros_board : Cells := fun _ => 0

/-- An image one pixel wide and two pixels high. -/
def narrow_image : Image := { w := 1, h := 2, n := 4, data := [7, 9] }

/-- An image two pixels wide and one pixel high. -/
def wide_image : Image := { w := 2, h := 1, n := 4, data := [7, 9] }

/-- A palette of 128 pairwise distinct colours, `0 .. 127`. -/
def palette128 : List Nat := List.range 128

/-- A one-pixel image whose colour `500` is in no entry of `palette128`. -/
def odd_pixel_image : Image := { w := 1, h := 1, n := 4, data := [500] }

/-! ## Floating point (`float`, `double`) -/

/-- A value of an IEEE-754 binary format: a signed finite magnitude counted in units of
`2^-1074`, an infinity, or a NaN. -/
inductive Flt where
  | fin (neg : Bool) (mag : Nat)
  | inf (neg : Bool)
  | nan
deriving DecidableEq

/-- The number of units in `1.0`. -/
def one_units : Nat := 2 ^ 1074

/-- A binary format: the precision in bits, the exponent of its smallest positive value
(in units) and its largest finite magnitude (in units). -/
structure Format where
  prec : Nat
  quantum : Nat
  max_mag : Nat

/-- The format of `float`: 24 bits, smallest value `2^-149`, largest `(2^24-1) * 2^104`. -/
def binary32 : Format := { prec := 24, quantum := 925, max_mag := (2 ^ 24 - 1) * 2 ^ 1178 }

/-- The format of `double`: 53 bits, smallest value `2^-1074`, largest `(2^53-1) * 2^971`. -/
def binary64 : Format := { prec := 53, quantum := 0, max_mag := (2 ^ 53 - 1) * 2 ^ 2045 }

/-- Binary search for the position of the leading bit: `j` halving steps on `n`. -/
def ilog2_aux : Nat → Nat → Nat → Nat
  | 0, _, acc => acc
  | j + 1, n, acc =>
    if 2 ^ (2 ^ j) ≤ n then ilog2_aux j (n / 2 ^ (2 ^ j)) (acc + 2 ^ j)
    else ilog2_aux j n acc

/-- The position of the leading bit of `n`, for `0 < n < 2^16384`. -/
def ilog2 (n : Nat) : Nat := ilog2_aux 14 n 0

/-- Rounding of the non-negative rational `n / d` (in units) to the nearest magnitude with
`prec` significant bits and spacing at least `2^quantum`, ties going to the even
significand. The exponent is not bounded above here. -/
def rne (prec quantum n d : Nat) : Nat :=
  let e := max quantum (ilog2 (n / d) + 1 - prec)
  let den := d * 2 ^ e
  let m := n / den
  let r := n % den
  if den < 2 * r ∨ (2 * r = den ∧ m % 2 = 1) then (m + 1) * 2 ^ e else m * 2 ^ e

/-- The value of format `f` nearest to `± n / d`; overflow gives an infinity. -/
def Flt.round (f : Format) (neg : Bool) (n d : Nat) : Flt :=
  let m := rne f.prec f.quantum n d
  if f.max_mag < m then .inf neg else .fin neg m

/-- Negation. -/
def Flt.neg : Flt → Flt
  | .fin s m => .fin (!s) m
  | .inf s => .inf (!s)
  | .nan => .nan

/-- Addition in format `f`. An exact zero sum of opposite signs is `+0`. -/
def Flt.add (f : Format) : Flt → Flt → Flt
  | .nan, _ => .nan
  | _, .nan => .nan
  | .inf a, .inf b => if a = b then .inf a else .nan
  | .inf a, .fin _ _ => .inf a
  | .fin _ _, .inf b => .inf b
  | .fin a m, .fin b k =>
    if a = b then Flt.round f a (m + k) 1
    else if k < m then Flt.round f a (m - k) 1
    else if m < k then Flt.round f b (k - m) 1
    else .fin false 0

/-- Subtraction in format `f`. -/
def Flt.sub (f : Format) (x y : Flt) : Flt := Flt.add f x (Flt.neg y)

/-- Multiplication in format `f`. -/
def Flt.mul (f : Format) : Flt → Flt → Flt
  | .nan, _ => .nan
  | _, .nan => .nan
  | .inf a, .inf b => .inf (xor a b)
  | .inf a, .fin b k => if k = 0 then .nan else .inf (xor a b)
  | .fin a m, .inf b => if m = 0 then .nan else .inf (xor a b)
  | .fin a m, .fin b k => Flt.round f (xor a b) (m * k) one_units

/-- Division in format `f`. -/
def Flt.div (f : Format) : Flt → Flt → Flt
  | .nan, _ => .nan
  | _, .nan => .nan
  | .inf _, .inf _ => .nan
  | .inf a, .fin b _ => .inf (xor a b)
  | .fin a _, .inf b => .fin (xor a b) 0
  | .fin a m, .fin b k =>
    if k = 0 then (if m = 0 then .nan else .inf (xor a b))
    else Flt.round f (xor a b) (m * one_units) k

/-- Conversion of a value to format `f` (exact when `f` is the wider format). -/
def Flt.convert (f : Format) : Flt → Flt
  | .fin s m => Flt.round f s m 1
  | x => x

/-- The signed number of units of a finite value. -/
def signed_units (neg : Bool) (mag : Nat) : Int := if neg then -(mag : Int) else mag

/-- The comparison `x <= y`; false when either side is a NaN. -/
def Flt.le : Flt → Flt → Bool
  | .nan, _ => false
  | _, .nan => false
  | .fin a m, .fin b k => decide (signed_units a m ≤ signed_units b k)
  | .inf a, .inf b => a || !b
  | .inf a, .fin _ _ => a
  | .fin _ _, .inf b => !b

/-- The comparison `x < y`; false when either side is a NaN. -/
def Flt.lt : Flt → Flt → Bool
  | .nan, _ => false
  | _, .nan => false
  | .fin a m, .fin b k => decide (signed_units a m < signed_units b k)
  | .inf a, .inf b => a && !b
  | .inf a, .fin _ _ => a
  | .fin _ _, .inf b => !b

/-- `fmaxf`: the larger argument, a NaN argument being ignored. -/
def fmaxf : Flt → Flt → Flt
  | .nan, y => y
  | x, .nan => x
  | x, y => if Flt.lt x y then y else x

/-- `floorf`: the largest integral value not above the argument. -/
def floorf : Flt → Flt
  | .fin false m => .fin false (m / one_units * one_units)
  | .fin true m => .fin true ((m + one_units - 1) / one_units * one_units)
  | x => x

/-- The conversion `(size_t) x`: the value truncated toward zero when that is
representable in 64 bits, and no defined result otherwise. -/
def to_size_t : Flt → Option Nat
  | .fin false m => if m / one_units < 2 ^ 64 then some (m / one_units) else none
  | .fin true m => if m / one_units = 0 then some 0 else none
  | _ => none

/-- Conversion of an integer to `float`. -/
def float_of_int (i : Int) : Flt :=
  Flt.round binary32 (decide (i < 0)) (i.natAbs * one_units) 1

/-- The rational value of a finite float (0 for infinities and NaN). -/
def Flt.to_rat : Flt → ℚ
  | .fin s m => (signed_units s m : ℚ) / (one_units : ℚ)
  | _ => 0

/-! ## Generation clock (`core.h`) -/

/-- `#define SCREEN_FPS 60`. -/
def SCREEN_FPS : Int := 60

/-- `#define DELTA_TIME_SEC (1.0f / SCREEN_FPS)`: a `float` division. -/
def DELTA_TIME_SEC : Flt := Flt.div binary32 (float_of_int 1) (float_of_int SCREEN_FPS)

/-- `#define NEXT_GEN_MIN_TIMEOUT 0.0000000005`: a `double` constant. -/
def NEXT_GEN_MIN_TIMEOUT : Flt := Flt.round binary64 false (5 * one_units) (10 ^ 10)

/-- `#define NEXT_GEN_INITIAL_TIMEOUT NEXT_GEN_MIN_TIMEOUT`. -/
def NEXT_GEN_INITIAL_TIMEOUT : Flt := NEXT_GEN_MIN_TIMEOUT

/-- The `double` constant `1.5`. -/
def one_and_a_half : Flt := .fin false (3 * 2 ^ 1073)

/-- The constant `0.0`. -/
def zero : Flt := .fin false 0

/-- The width of `size_t` arithmetic. -/
def SIZE_MOD : Nat := 2 ^ 64

/-- The fields of `Core` that are data (the window and renderer handles are left out). -/
structure Core where
  quit : Bool
  pause : Bool
  next_gen_cooldown : Flt
  next_gen_timeout : Flt
  next_gen_count : Nat
  mouse_x : Flt
  mouse_y : Flt
  mouse_clicked : Bool
  keyboard : List Bool

/-- The events `core_time_to_quit` distinguishes; `other` is any event type without a
`case`. Mouse events carry the pointer position. -/
inductive Event where
  | quit
  | keydown (sym : Int)
  | mousemotion (x y : Int)
  | mousebuttondown (x y : Int)
  | other

/-- The key code `SDLK_SPACE`. -/
def SDLK_SPACE : Int := 32

/-- The key code `SDLK_x`. -/
def SDLK_x : Int := 120

/-- The key code `SDLK_z`. -/
def SDLK_z : Int := 122

/-- The part of `core_begin` that touches the clock: the initial timeout. -/
def core_begin (c : Core) : Core :=
  { c with next_gen_timeout := Flt.convert binary32 NEXT_GEN_INITIAL_TIMEOUT }

/-- The inner `switch (sym)` of the `SDL_KEYDOWN` case. The quotient and the product by
`1.5` are computed in `double` and converted to `float`. -/
def core_key (c : Core) (sym : Int) : Core :=
  if sym = SDLK_SPACE then { c with pause := !c.pause }
  else if sym = SDLK_x then
    let t := fmaxf (Flt.convert binary32 (Flt.div binary64 c.next_gen_timeout one_and_a_half))
                   (Flt.convert binary32 NEXT_GEN_MIN_TIMEOUT)
    { c with next_gen_timeout := t, next_gen_cooldown := t }
  else if sym = SDLK_z then
    let t := Flt.convert binary32 (Flt.mul binary64 c.next_gen_timeout one_and_a_half)
    { c with next_gen_timeout := t, next_gen_cooldown := t }
  else c

/-- The body of the `while (SDL_PollEvent(&event))` loop for one event. -/
def core_event (c : Core) : Event → Core
  | .quit => { c with quit := true }
  | .keydown sym =>
    let c1 := core_key c sym
    if 0 ≤ sym ∧ sym < 256 then { c1 with keyboard := c1.keyboard.set sym.toNat true } else c1
  | .mousemotion x y => { c with mouse_x := float_of_int x, mouse_y := float_of_int y }
  | .mousebuttondown x y =>
    { c with mouse_clicked := true, mouse_x := float_of_int x, mouse_y := float_of_int y }
  | .other => c

/-- The clock update that ends `core_time_to_quit` (the `if (!context->pause)` block).
`none` when the conversion to `size_t` has no defined result. -/
def core_tick (c : Core) : Option Core :=
  if !c.pause then
    if Flt.le DELTA_TIME_SEC c.next_gen_timeout then
      let cooldown := Flt.sub binary32 c.next_gen_cooldown DELTA_TIME_SEC
      if Flt.le cooldown zero then
        some { c with next_gen_cooldown := c.next_gen_timeout,
                      next_gen_count := (c.next_gen_count + 1) % SIZE_MOD }
      else some { c with next_gen_cooldown := cooldown }
    else
      match to_size_t (floorf (Flt.div binary32 DELTA_TIME_SEC c.next_gen_timeout)) with
      | some k => some { c with next_gen_count := (c.next_gen_count + k) % SIZE_MOD }
      | none => none
  else some c

/-- `core_time_to_quit` on the events polled during the frame: the returned flag and the
new state. -/
def core_time_to_quit (c : Core) (events : List Event) : Option (Bool × Core) :=
  let c0 := { c with mouse_clicked := false, keyboard := List.replicate 256 false }
  let c1 := events.foldl core_event c0
  match core_tick c1 with
  | some c2 => some (c2.quit, c2)
  | none => none

/-- `core_next_gen_count`: the owed count, and the state with the count reset. -/
def core_next_gen_count (c : Core) : Nat × Core :=
  (c.next_gen_count, { c with next_gen_count := 0 })

/-- One frame of the clock: `core_time_to_quit` followed by the consume call. Returns the
owed generations of the frame and the state after it. -/
def clock_frame (c : Core) (events : List Event) : Option (Nat × Core) :=
  match core_time_to_quit c events with
  | some r => some (core_next_gen_count r.2)
  | none => none

/-- Running `n` frames without input events, collecting the owed count of each. -/
def clock_frames : Nat → Core → Option (List Nat × Core)
  | 0, c => some ([], c)
  | n + 1, c =>
    match clock_frame c [] with
    | some (k, c1) =>
      match clock_frames n c1 with
      | some (ks, c2) => some (k :: ks, c2)
      | none => none
    | none => none

/-- Running `n` calls of `core_time_to_quit` without input events and without consuming. -/
def core_ticks : Nat → Core → Option Core
  | 0, c => some c
  | n + 1, c =>
    match core_time_to_quit c [] with
    | some r => core_ticks n r.2
    | none => none

/-- A clock state with the given pause flag, timeout, cooldown and owed count. -/
def clock_state (pause : Bool) (timeout cooldown : Flt) (count : Nat) : Core :=
  { quit := false, pause := pause, next_gen_cooldown := cooldown,
    next_gen_timeout := timeout, next_gen_count := count,
    mouse_x := zero, mouse_y := zero, mouse_clicked := false,
    keyboard := List.replicate 256 false }

/-- The `float` product `10 * DELTA_TIME_SEC`. -/
def ten_delta : Flt := Flt.mul binary32 (float_of_int 10) DELTA_TIME_SEC

/-- The `float` quotient `DELTA_TIME_SEC / 3`. -/
def third_delta : Flt := Flt.div binary32 DELTA_TIME_SEC (float_of_int 3)

/-- The clock of a zero-initialised `Core` after `core_begin`. -/
def started_clock : Core := core_begin (clock_state false zero zero 0)

/-- Three presses of the key `z` (slow down). -/
def three_z : List Event := [.keydown SDLK_z, .keydown SDLK_z, .keydown SDLK_z]

/-- The timeout after `core_begin` and three presses of `z`: `15199647 * 2^-53`. -/
def slowed_timeout : Flt := .fin false (15199647 * 2 ^ 1021)

/-! ## Simulation loop (`life.h`) -/

/-- `typedef void (*Life_Rule)(Cell* prev, Cell* next)`: a rule receives both arrays and
leaves both in some state; the pair is `(prev, next)` after the call. -/
abbrev Life_Rule := Cells → Cells → Cells × Cells

/-- Modelled from the spec: `Square` is declared in `square.h`, which is not among the
sources. `life_go` uses its embedded `Core` and the clicked cell that
`square_time_to_quit` reports. -/
structure Square where
  core : Core
  cell_clicked : Bool
  cell_row : Int
  cell_col : Int

/-- The struct `Life`; `boards` maps the index of `boards[2]` to the cell array, and a
null `rule` is `none`. -/
structure Life where
  square : Square
  boards : Int → Cells
  board_current : Int
  rule : Option Life_Rule
  cells_count : Int
  cells_color : List Nat

/-- Modelled from the spec: `square_next_gen_count` is defined in `square.h`, which is not
among the sources; the spec's `consume()` returns the owed generations and resets the
accumulator, which is `core_next_gen_count` on the embedded `Core`. -/
def square_next_gen_count (s : Square) : Nat × Square :=
  ((core_next_gen_count s.core).1, { s with core := (core_next_gen_count s.core).2 })

/-- The body of the `for` loop of `life_go`: the rule is called on `boards[board_current]`
and `boards[1 - board_current]`, then `board_current` becomes `1 - board_current`. -/
def life_advance (rule : Life_Rule) (l : Life) : Life :=
  let r := rule (l.boards l.board_current) (l.boards (1 - l.board_current))
  { l with
    boards := Function.update (Function.update l.boards l.board_current r.1)
                (1 - l.board_current) r.2
    board_current := 1 - l.board_current }

/-- The number of iterations of `for (size_t i = 0; i < count*30; ++i)`. -/
def life_iterations (count : Nat) : Nat := (count * 30) % SIZE_MOD

/-- The block `if (context.rule) { ... }` of `life_go`. -/
def life_go_generations (l : Life) : Life :=
  match l.rule with
  | none => l
  | some rule =>
    let r := square_next_gen_count l.square
    (life_advance rule)^[life_iterations r.1] { l with square := r.2 }

/-- The key code of `'r'`. -/
def KEY_r : Nat := 114

/-- The edits `life_go` makes before the generation block: the click on a cell
(`mod(cells[i] + 1, cells_count)`, stored back into an `int8_t`) and the reset on `r`. -/
def life_go_edits (COLS : Int) (l : Life) : Life :=
  let l1 : Life :=
    if l.square.cell_clicked then
      let i := iter_cell COLS l.square.cell_col l.square.cell_row
      let board := l.boards l.board_current
      let edited := Function.update board i (to_int8 (mod_add (board i) 1 l.cells_count))
      { l with boards := Function.update l.boards l.board_current edited }
    else l
  if l1.square.core.keyboard.getD KEY_r false then
    { l1 with boards := Function.update l1.boards l1.board_current (fun _ => 0) }
  else l1

/-- The state change of one pass through the body of the `while` loop of `life_go`, from
the state `square_time_to_quit` left: the edits, then the generation block. Saving on `s`
and rendering read the state without changing it. -/
def life_go_frame (COLS : Int) (l : Life) : Life :=
  life_go_generations (life_go_edits COLS l)

/-- A rule that stores in cell 0 of `next` the successor of cell 0 of `prev`, so that
cell 0 of the current board counts the applications of the rule. -/
def counting_rule : Life_Rule :=
  fun prev next => (prev, Function.update next 0 (prev 0 + 1))

/-- A simulation with `counting_rule`, both boards zero, buffer 0 current, no click and no
key pressed, whose clock holds `count` owed generations. -/
def counting_life (count : Nat) : Life :=
  { square := { core := clock_state false zero zero count,
                cell_clicked := false, cell_row := 0, cell_col := 0 }
    boards := fun _ _ => 0
    board_current := 0
    rule := some counting_rule
    cells_count := 2
    cells_color := [0, 1] }

/-! ## Grid geometry: proofs -/

theorem tmod_of_neg (a m : Int) (ha : a < 0) : Int.tmod a m = -((-a) % m) := by
  obtain ⟨k, rfl⟩ : ∃ k : Nat, a = Int.negSucc k := by
    cases a with
    | ofNat n => exact absurd ha (by simp)
    | negSucc k => exact ⟨k, rfl⟩
  cases m with
  | ofNat n =>
    show -Int.ofNat (k.succ % n) = _
    simp [Int.neg_negSucc]
  | negSucc n =>
    show -Int.ofNat (k.succ % n.succ) = _
    simp [Int.neg_negSucc, Int.emod_negSucc]
    norm_cast

theorem tmod_bounds (a m : Int) (hm : 0 < m) : -m < Int.tmod a m ∧ Int.tmod a m < m := by
  refine ⟨?_, Int.tmod_lt_of_pos a hm⟩
  rcases le_or_lt 0 a with ha | ha
  · have := Int.tmod_nonneg m ha
    omega
  · rw [tmod_of_neg a m ha]
    have := Int.emod_lt_of_pos (-a) hm
    omega

theorem tmod_add_eq_emod (x y b : Int) (hx0 : 0 ≤ x) (hb : 0 < b) :
    Int.tmod (x + Int.tmod y b + b) b = (x + y) % b := by
  obtain ⟨h1, h2⟩ := tmod_bounds y b hb
  rw [Int.tmod_eq_emod (by omega) (by omega), Int.add_emod_self]
  rcases le_or_lt 0 y with ha | ha
  · rw [Int.tmod_eq_emod ha (by omega)]
    simp
  · rw [tmod_of_neg y b ha]
    have h := Int.emod_add_ediv (-y) b
    have e : x + -(-y % b) = (x + y) + b * (-y / b) := by omega
    rw [e, Int.add_mul_emod_self_left]

theorem atomato_mod_eq_emod (a m : Int) (hm : 0 < m) : atomato_mod a m = a % m := by
  have h := tmod_add_eq_emod 0 a m le_rfl hm
  simpa [atomato_mod] using h

theorem to_int32_of_range (x : Int) (h0 : -2147483648 ≤ x) (h1 : x < 2147483648) :
    to_int32 x = x := by
  unfold to_int32
  omega

/-- What the macro does compute: for a single operand `a` and a modulus up to `2^30` the
sum `a % m + m` stays inside `int` and the result is the true modulo of `a`. -/
theorem mod_operand_eq_emod (a m : Int) (hm : 0 < m) (hm30 : m ≤ 1073741824) :
    mod (.operand a) m = a % m := by
  obtain ⟨h1, h2⟩ := tmod_bounds a m hm
  have h := tmod_add_eq_emod 0 a m le_rfl hm
  simp only [mod, MacroArg.rem]
  rw [to_int32_of_range _ (by omega) (by omega)]
  simpa using h

/-- On a grid of at most `2^29` lines the expansion of `mod(x + y, b)` stays inside `int`:
the macro and its text on unbounded integers agree. -/
theorem mod_plus_eq_mod_add (x y b : Int) (hx0 : 0 ≤ x) (hxb : x < b) (hb : b ≤ 536870912) :
    mod (.plus x y) b = mod_add x y b := by
  obtain ⟨h1, h2⟩ := tmod_bounds y b (by omega)
  simp only [mod, MacroArg.rem, mod_add]
  rw [to_int32_of_range (x + Int.tmod y b) (by omega) (by omega),
    to_int32_of_range _ (by omega) (by omega)]

/-- C1: the macro `mod` is not the true modulo of its argument. For the argument text
`a + m` with `a = -7`, `m = 3` it expands to `(-7 + 3 % 3 + 3) % 3 = -1`, while
`mod(a, m) = 2` and the true modulo of `-4` by 3 is 2; and for `a = 5`,
`m = 2147483647` the sum `a % m + m` leaves the range of `int` and the result is
`-2147483644`, outside `[0, m)`. -/
theorem mod_macro_is_not_true_modulo :
    mod (.plus (-7) 3) 3 = -1 ∧ mod (.operand (-7)) 3 = 2 ∧ ((-7 : Int) + 3) % 3 = 2 ∧
    mod (.operand 5) 2147483647 = -2147483644 ∧ (5 : Int) % 2147483647 = 5 := by
  decide

/-! ## Neighbour counting: proofs -/

theorem foldl_set_length {α : Type} (f : Nat → α) (n : Nat) (init : List α) :
    ((List.range n).foldl (fun acc j => acc.set j (f j)) init).length = init.length := by
  induction n with
  | zero => simp
  | succ n ih => simp [List.range_succ, List.foldl_append, ih]

theorem foldl_set_getElem? {α : Type} (f : Nat → α) (n : Nat) (init : List α) (i : Nat) :
    ((List.range n).foldl (fun acc j => acc.set j (f j)) init)[i]? =
      if i < n ∧ i < init.length then some (f i) else init[i]? := by
  induction n with
  | zero => simp
  | succ n ih =>
    simp only [List.range_succ, List.foldl_append, List.foldl_cons, List.foldl_nil]
    rw [List.getElem?_set, foldl_set_length, ih]
    by_cases h : n = i
    · subst h
      by_cases hl : n < init.length
      · simp [hl]
      · have hnone : init[n]? = none := List.getElem?_eq_none_iff.mpr (by omega)
        simp [hl, hnone]
    · simp only [h, if_false]
      by_cases h2 : i < n
      · have : i < n + 1 := by omega
        simp [h2, this]
      · have : ¬ i < n + 1 := by omega
        simp [h2, this]

theorem pattern_table (a b c : Nat) (ha : a ≤ 1) (hb : b ≤ 1) (hc : c ≤ 1) :
    PATTERN a b c = 4 * a + 2 * b + c ∧
    patterns.getD (PATTERN a b c) 0 = rule110_bit (4 * a + 2 * b + c) := by
  interval_cases a <;> interval_cases b <;> interval_cases c <;> decide

theorem getD_le_one (prev : List Nat) (hbin : ∀ x ∈ prev, x ≤ 1) (j : Nat) :
    prev.getD j 0 ≤ 1 := by
  rw [List.getD_eq_getElem?_getD]
  cases h : prev[j]? with
  | none => simp
  | some x => exact hbin x (List.getElem?_mem h)

/-- C4: on a row of `COLS` binary cells, cell `i` of `next_row` is bit number
`4*prev[wrap(i-1)] + 2*prev[i] + prev[wrap(i+1)]` of 110; the table `patterns` agrees with
that on all eight windows; with width 5, `[0,0,0,1,0]` gives `[0,0,1,1,0]`. -/
theorem next_row_is_rule110 (COLS : Nat) (prev : List Nat) (i : Nat)
    (_hlen : prev.length = COLS) (hbin : ∀ x ∈ prev, x ≤ 1) (hi : i < COLS) :
    (next_row COLS prev).length = COLS ∧
    (next_row COLS prev).getD i 0 =
      rule110_bit (4 * prev.getD (((i : Int) - 1) % (COLS : Int)).toNat 0
        + 2 * prev.getD i 0 + prev.getD (((i : Int) + 1) % (COLS : Int)).toNat 0) ∧
    (∀ a b c : Nat, a ≤ 1 → b ≤ 1 → c ≤ 1 →
      patterns.getD (PATTERN a b c) 0 = rule110_bit (4 * a + 2 * b + c)) ∧
    next_row 5 [0, 0, 0, 1, 0] = [0, 0, 1, 1, 0] := by
  have hC : (0 : Int) < (COLS : Int) := by omega
  refine ⟨?_, ?_, fun a b c ha hb hc => (pattern_table a b c ha hb hc).2, by decide⟩
  · unfold next_row
    rw [foldl_set_length]
    simp
  · unfold next_row
    rw [List.getD_eq_getElem?_getD, foldl_set_getElem?]
    simp only [List.length_replicate, hi, and_self, if_true, Option.getD_some]
    rw [atomato_mod_eq_emod _ _ hC, atomato_mod_eq_emod _ _ hC]
    have h := pattern_table _ _ _ (getD_le_one prev hbin (((i : Int) - 1) % (COLS : Int)).toNat)
      (getD_le_one prev hbin i) (getD_le_one prev hbin (((i : Int) + 1) % (COLS : Int)).toNat)
    exact h.2

/-- The instance for width 5, the row `[0,0,0,1,0]` and cell 2. -/
theorem next_row_is_rule110_witness :
    (next_row 5 [0, 0, 0, 1, 0]).length = 5 ∧
    (next_row 5 [0, 0, 0, 1, 0]).getD 2 0 =
      rule110_bit (4 * [0, 0, 0, 1, 0].getD ((((2 : Nat) : Int) - 1) % ((5 : Nat) : Int)).toNat 0
        + 2 * [0, 0, 0, 1, 0].getD 2 0
        + [0, 0, 0, 1, 0].getD ((((2 : Nat) : Int) + 1) % ((5 : Nat) : Int)).toNat 0) ∧
    (∀ a b c : Nat, a ≤ 1 → b ≤ 1 → c ≤ 1 →
      patterns.getD (PATTERN a b c) 0 = rule110_bit (4 * a + 2 * b + c)) ∧
    next_row 5 [0, 0, 0, 1, 0] = [0, 0, 1, 1, 0] :=
  next_row_is_rule110 5 [0, 0, 0, 1, 0] 2 rfl (by decide) (by decide)

/-! ## Image codec: proofs -/

theorem to_int8_succ (k : Int) (h0 : 0 ≤ k) (h1 : k < 127) : to_int8 (k + 1) = k + 1 := by
  unfold to_int8
  omega

theorem not_before_indexOf (a : Nat) : ∀ (l : List Nat) (j : Nat),
    j < List.indexOf a l → l[j]? ≠ some a
  | [], j, h => by simp
  | b :: l, j, h => by
    by_cases hb : b = a
    · rw [List.indexOf_cons_eq l hb] at h
      omega
    · rw [List.indexOf_cons_ne l hb] at h
      cases j with
      | zero => simpa using hb
      | succ j =>
        simp only [List.getElem?_cons_succ]
        exact not_before_indexOf a l j (by omega)

/-- The search finds the least index holding `color`, when that index is at most 127 and
below `cells_count`. -/
theorem search_found (pal : List Nat) (cc : Int) (color : Nat) (s : Nat)
    (hs : pal[s]? = some color) (hmin : ∀ j < s, pal[j]? ≠ some color)
    (h127 : s ≤ 127) (hcc : (s : Int) < cc) :
    ∀ (fuel : Nat) (k : Nat), k ≤ s → s - k < fuel →
      search_palette pal cc color fuel (k : Int) = .found (s : Int) := by
  intro fuel
  induction fuel with
  | zero => intro k _ h; omega
  | succ fuel ih =>
    intro k hk hf
    have hslen : s < pal.length := by
      by_contra hc
      rw [List.getElem?_eq_none_iff.mpr (by omega)] at hs
      exact absurd hs (by simp)
    have hklen : k < pal.length := by omega
    unfold search_palette
    have h1 : (k : Int) < cc := by omega
    simp only [h1, if_true, palette_at, show ¬ ((k : Int) < 0) by omega, if_false,
      Int.toNat_ofNat, List.get?_eq_getElem?, List.getElem?_eq_getElem hklen]
    by_cases hks : k = s
    · subst hks
      rw [List.getElem?_eq_getElem hklen] at hs
      have : pal[k] = color := by simpa using hs
      simp [this]
    · have hlt : k < s := by omega
      have hne : pal[k] ≠ color := by
        intro he
        apply hmin k hlt
        rw [List.getElem?_eq_getElem hklen, he]
      simp only [hne, if_false]
      rw [to_int8_succ _ (by omega) (by omega)]
      have := ih (k + 1) (by omega) (by omega)
      simpa using this

/-- With at most 127 palette entries the search ends with `absent` when no entry holds
`color`. -/
theorem search_absent (pal : List Nat) (cc : Int) (color : Nat)
    (hlen : (pal.length : Int) = cc) (h127 : cc ≤ 127) (hno : color ∉ pal) :
    ∀ (fuel : Nat) (k : Nat), k ≤ pal.length → pal.length - k < fuel →
      search_palette pal cc color fuel (k : Int) = .absent := by
  intro fuel
  induction fuel with
  | zero => intro k _ h; omega
  | succ fuel ih =>
    intro k hk hf
    unfold search_palette
    by_cases hkl : k < pal.length
    · have h1 : (k : Int) < cc := by omega
      have hne : pal[k] ≠ color := fun he => hno (he ▸ List.getElem_mem _)
      simp only [h1, if_true, palette_at, show ¬ ((k : Int) < 0) by omega, if_false,
        Int.toNat_ofNat, List.get?_eq_getElem?, List.getElem?_eq_getElem hkl, hne]
      rw [to_int8_succ _ (by omega) (by omega)]
      have := ih (k + 1) (by omega) (by omega)
      simpa using this
    · have h1 : ¬ (k : Int) < cc := by omega
      simp [h1]

theorem search_of_mem (pal : List Nat) (cc : Int) (color : Nat)
    (hmem : color ∈ pal) (h127 : List.indexOf color pal ≤ 127)
    (hcc : (List.indexOf color pal : Int) < cc) :
    search_palette pal cc color 256 0 = .found (List.indexOf color pal : Int) := by
  have h := search_found pal cc color (List.indexOf color pal)
    (List.getElem?_indexOf hmem) (fun j hj => not_before_indexOf color pal j hj) h127 hcc 256 0
    (by omega) (by omega)
  simpa using h

theorem search_of_not_mem (pal : List Nat) (cc : Int) (color : Nat)
    (hlen : (pal.length : Int) = cc) (h127 : cc ≤ 127) (hno : color ∉ pal) :
    search_palette pal cc color 256 0 = .absent := by
  have h := search_absent pal cc color hlen h127 hno 256 0 (by omega) (by omega)
  simpa using h

/-- The palette search started at cell 0 with 256 iterations of fuel always ends: the
`int8_t` loop variable reaches at most 127 before wrapping to -128, where the search
either stops or reads outside the palette. -/
theorem search_palette_terminates (pal : List Nat) (cc : Int) (color : Nat) :
    search_palette pal cc color 256 0 ≠ .unfinished := by
  have hneg : ∀ fuel : Nat, search_palette pal cc color (fuel + 1) (-128) ≠ .unfinished := by
    intro fuel
    unfold search_palette
    split_ifs
    · simp [palette_at]
    · simp
  have hstep : ∀ (fuel : Nat) (k : Nat), k ≤ 127 → 128 - k < fuel →
      search_palette pal cc color fuel (k : Int) ≠ .unfinished := by
    intro fuel
    induction fuel with
    | zero => intro k _ h; omega
    | succ fuel ih =>
      intro k hk hf
      unfold search_palette
      split_ifs with h1
      · cases hp : palette_at pal (k : Int) with
        | none => simp
        | some c =>
          simp only []
          split_ifs
          · simp
          · by_cases h127 : k = 127
            · subst h127
              have : to_int8 (((127 : Nat) : Int) + 1) = -128 := by decide
              rw [this]
              obtain ⟨f, rfl⟩ : ∃ f, fuel = f + 1 := ⟨fuel - 1, by omega⟩
              exact hneg f
            · rw [to_int8_succ _ (by omega) (by omega)]
              have := ih (k + 1) (by omega) (by omega)
              simpa using this
      · simp
  have := hstep 256 0 (by omega) (by omega)
  simpa using this

/-! ### The loops as one pass over the pixels -/

theorem load_list_append (cc : Int) (pal : List Nat) :
    ∀ (p1 p2 : List Nat) (k : Nat) (b : Cells),
      load_list cc pal k (p1 ++ p2) b =
        match load_list cc pal k p1 b with
        | (.loaded, b1) => load_list cc pal (k + p1.length) p2 b1
        | stopped => stopped
  | [], p2, k, b => by simp [load_list]
  | px :: p1, p2, k, b => by
    simp only [List.cons_append, load_list, List.length_cons]
    cases h : search_palette pal cc px 256 0 with
    | found cell =>
      simp only []
      rw [show p1.append p2 = p1 ++ p2 from rfl, load_list_append cc pal p1 p2 (k + 1)]
      have : k + 1 + p1.length = k + (p1.length + 1) := by omega
      rw [this]
    | absent => simp
    | fault => simp
    | unfinished => simp

theorem load_row_eq_load_list (COLS : Nat) (data : List Nat) (cc : Int) (pal : List Nat)
    (row : Nat) : ∀ (len c : Nat) (b : Cells), row * COLS + c + len ≤ data.length →
      load_row COLS COLS data cc pal row (List.range' c len) b =
        load_list cc pal (row * COLS + c) ((data.drop (row * COLS + c)).take len) b
  | 0, c, b, _ => by simp [load_row, load_list]
  | len + 1, c, b, h => by
    have hlt : row * COLS + c < data.length := by omega
    rw [List.range'_succ, List.drop_eq_getElem_cons hlt, List.take_succ_cons]
    simp only [load_row, load_list, List.get?_eq_getElem?, List.getElem?_eq_getElem hlt]
    have hidx : iter_cell (COLS : Int) (c : Int) (row : Int) = ((row * COLS + c : Nat) : Int) := by
      simp [iter_cell]
    rw [hidx]
    cases hs : search_palette pal cc data[row * COLS + c] 256 0 with
    | found cell =>
      simp only []
      have := load_row_eq_load_list COLS data cc pal row len (c + 1)
        (Function.update b ((row * COLS + c : Nat) : Int) cell) (by omega)
      rw [this]
      rfl
    | absent => simp
    | fault => simp
    | unfinished => simp

theorem load_rows_eq_load_list_range' (COLS : Nat) (data : List Nat) (cc : Int) (pal : List Nat) :
    ∀ (cnt r : Nat) (b : Cells), (r + cnt) * COLS ≤ data.length →
      load_rows COLS COLS data cc pal (List.range' r cnt) b =
        load_list cc pal (r * COLS) ((data.drop (r * COLS)).take (cnt * COLS)) b
  | 0, r, b, _ => by simp [load_rows, load_list]
  | cnt + 1, r, b, h => by
    have h1 : r * COLS + 0 + COLS ≤ data.length := by nlinarith
    have h2 : (r + 1 + cnt) * COLS ≤ data.length := by
      have : r + 1 + cnt = r + (cnt + 1) := by omega
      rw [this]; exact h
    rw [List.range'_succ]
    simp only [load_rows]
    rw [List.range_eq_range', load_row_eq_load_list COLS data cc pal r COLS 0 b h1]
    have hsplit : (cnt + 1) * COLS = COLS + cnt * COLS := by ring
    have hlen : ((data.drop (r * COLS)).take COLS).length = COLS := by
      rw [List.length_take, List.length_drop]
      have : COLS ≤ data.length - r * COLS := by omega
      omega
    rw [hsplit, List.take_add, load_list_append, hlen, List.drop_drop, Nat.add_zero]
    have hr : r * COLS + COLS = (r + 1) * COLS := by ring
    rw [hr]
    cases hres : load_list cc pal (r * COLS) ((data.drop (r * COLS)).take COLS) b with
    | mk res b1 =>
      cases res with
      | loaded =>
        simp only []
        exact load_rows_eq_load_list_range' COLS data cc pal cnt (r + 1) b1 h2
      | unknown_color c => simp
      | unreadable => simp
      | assert_failed => simp
      | fault => simp

theorem load_rows_eq_load_list (ROWS COLS : Nat) (data : List Nat) (cc : Int) (pal : List Nat)
    (b : Cells) (hdata : data.length = ROWS * COLS) :
    load_rows COLS COLS data cc pal (List.range ROWS) b = load_list cc pal 0 data b := by
  rw [List.range_eq_range', load_rows_eq_load_list_range' COLS data cc pal ROWS 0 b
    (by rw [Nat.zero_add, hdata])]
  simp only [Nat.zero_mul, List.drop_zero]
  rw [← hdata, List.take_length]

/-- What the pass over the pixels does when every pixel is found in the palette: it
returns normally and flat cell `k + j` holds the least palette index of pixel `j`. -/
theorem load_list_loaded (cc : Int) (pal : List Nat) :
    ∀ (pixels : List Nat) (k : Nat) (b : Cells),
      (∀ px ∈ pixels, search_palette pal cc px 256 0 = .found (List.indexOf px pal : Int)) →
      (load_list cc pal k pixels b).1 = .loaded ∧
      (∀ j (hj : j < pixels.length),
        (load_list cc pal k pixels b).2 ((k + j : Nat) : Int) = (List.indexOf pixels[j] pal : Int)) ∧
      (∀ i : Int, (i < k ∨ (k + pixels.length : Nat) ≤ i) →
        (load_list cc pal k pixels b).2 i = b i)
  | [], k, b, _ => by simp [load_list]
  | px :: rest, k, b, h => by
    have hpx := h px (List.mem_cons_self _ _)
    have ih := load_list_loaded cc pal rest (k + 1) (Function.update b (k : Int)
      (List.indexOf px pal : Int)) (fun q hq => h q (List.mem_cons_of_mem _ hq))
    simp only [load_list, hpx]
    refine ⟨ih.1, ?_, ?_⟩
    · intro j hj
      cases j with
      | zero =>
        have := ih.2.2 (k : Int) (Or.inl (by push_cast; omega))
        simpa using this
      | succ j =>
        have := ih.2.1 j (by simpa using hj)
        have e : k + (j + 1) = k + 1 + j := by omega
        simpa [e] using this
    · intro i hi
      have := ih.2.2 i (by
        rcases hi with hi | hi
        · left; push_cast; omega
        · right; simp only [List.length_cons] at hi; push_cast at hi ⊢; omega)
      rw [this, Function.update_noteq]
      rcases hi with hi | hi
      · omega
      · simp only [List.length_cons] at hi; push_cast at hi; omega

/-- What the pass over the pixels does when some pixel is in no palette entry (at most 127
entries): it stops with the unknown-colour error for the first such pixel. -/
theorem load_list_unknown (cc : Int) (pal : List Nat) (hlen : (pal.length : Int) = cc)
    (h127 : cc ≤ 127) :
    ∀ (pixels : List Nat) (k : Nat) (b : Cells) (c : Nat),
      pixels.find? (fun px => decide (px ∉ pal)) = some c →
      (load_list cc pal k pixels b).1 = .unknown_color c
  | [], k, b, c, h => by simp at h
  | px :: rest, k, b, c, h => by
    by_cases hmem : px ∈ pal
    · have hidx : List.indexOf px pal < pal.length := List.indexOf_lt_length.2 hmem
      have hs := search_of_mem pal cc px hmem (by omega) (by omega)
      simp only [load_list, hs]
      apply load_list_unknown cc pal hlen h127 rest
      simpa [List.find?_cons, hmem] using h
    · have hs := search_of_not_mem pal cc px hlen h127 hmem
      simp only [load_list, hs]
      simp [List.find?_cons, hmem] at h
      rw [h]

/-! ### Saving -/

theorem save_row_eq (COLS : Nat) (board : Cells) (pal : List Nat) (row : Nat) :
    ∀ (len c : Nat),
      (∀ i : Nat, row * COLS + c ≤ i → i < row * COLS + c + len →
        (palette_at pal (board (i : Int))).isSome) →
      save_row COLS board pal row (List.range' c len) =
        some ((List.range' (row * COLS + c) len).map (saved_pixel board pal))
  | 0, c, _ => by simp [save_row]
  | len + 1, c, h => by
    have hidx : iter_cell (COLS : Int) (c : Int) (row : Int) = ((row * COLS + c : Nat) : Int) := by
      simp [iter_cell]
    have ih := save_row_eq COLS board pal row len (c + 1) (fun i h1 h2 => h i (by omega) (by omega))
    have h0 := h (row * COLS + c) (by omega) (by omega)
    obtain ⟨v, hv⟩ := Option.isSome_iff_exists.mp h0
    rw [List.range'_succ, List.range'_succ]
    simp only [save_row, hidx, hv, ih, List.map_cons, saved_pixel, Option.getD_some]
    rfl

theorem save_rows_eq (COLS : Nat) (board : Cells) (pal : List Nat) :
    ∀ (cnt r : Nat),
      (∀ i : Nat, r * COLS ≤ i → i < (r + cnt) * COLS →
        (palette_at pal (board (i : Int))).isSome) →
      save_rows COLS board pal (List.range' r cnt) =
        some ((List.range' (r * COLS) (cnt * COLS)).map (saved_pixel board pal))
  | 0, r, _ => by simp [save_rows]
  | cnt + 1, r, h => by
    have hrow := save_row_eq COLS board pal r COLS 0 (fun i h1 h2 => h i (by omega) (by nlinarith))
    have ih := save_rows_eq COLS board pal cnt (r + 1) (fun i h1 h2 => h i (by nlinarith) (by
      have : r + 1 + cnt = r + (cnt + 1) := by omega
      rw [← this]; exact h2))
    have hsplit : (cnt + 1) * COLS = cnt * COLS + COLS := by ring
    have hr : r * COLS + COLS = (r + 1) * COLS := by ring
    rw [List.range'_succ]
    simp only [save_rows]
    rw [List.range_eq_range', hrow, ih, hsplit, ← List.range'_append_1, List.map_append,
      Nat.add_zero, hr]

theorem save_eq (ROWS COLS : Nat) (board : Cells) (cc : Int) (pal : List Nat)
    (h : ∀ i : Nat, i < ROWS * COLS → (palette_at pal (board (i : Int))).isSome) :
    life_save_board_to_image ROWS COLS board cc pal =
      some { w := COLS, h := ROWS, n := 4,
             data := (List.range (ROWS * COLS)).map (saved_pixel board pal) } := by
  unfold life_save_board_to_image
  rw [List.range_eq_range', save_rows_eq COLS board pal ROWS 0 (fun i _ h2 => h i (by simpa using h2))]
  simp [List.range_eq_range']

theorem flat_index (ROWS COLS i : Nat) (hi : i < ROWS * COLS) :
    i / COLS < ROWS ∧ i % COLS < COLS ∧
    iter_cell (COLS : Int) ((i % COLS : Nat) : Int) ((i / COLS : Nat) : Int) = (i : Int) := by
  have hC : 0 < COLS := by
    rcases Nat.eq_zero_or_pos COLS with h | h
    · subst h; simp at hi
    · exact h
  refine ⟨?_, Nat.mod_lt _ hC, ?_⟩
  · exact Nat.div_lt_of_lt_mul (by rwa [Nat.mul_comm] at hi)
  · unfold iter_cell
    have h2 : i / COLS * COLS + i % COLS = i := by
      rw [Nat.mul_comm]; exact Nat.div_add_mod i COLS
    exact_mod_cast h2

theorem grid_index (ROWS COLS row col : Nat) (hr : row < ROWS) (hc : col < COLS) :
    row * COLS + col < ROWS * COLS ∧
    iter_cell (COLS : Int) (col : Int) (row : Int) = ((row * COLS + col : Nat) : Int) := by
  refine ⟨?_, by simp [iter_cell]⟩
  have : (row + 1) * COLS ≤ ROWS * COLS := Nat.mul_le_mul_right _ hr
  nlinarith

/-! ### Round trip and load outcome -/

theorem first_entry_of_nodup (pal : List Nat) (hn : pal.Nodup) (s : Nat) (hs : s < pal.length) :
    first_entry pal s := by
  intro j hj he
  have hjl : j < pal.length := by omega
  rw [List.getElem?_eq_getElem hjl, List.getElem?_eq_getElem hs] at he
  have := (List.Nodup.getElem_inj_iff hn).mp (Option.some.inj he)
  omega

theorem indexOf_of_first_entry (pal : List Nat) (s : Nat) (hs : s < pal.length)
    (hf : first_entry pal s) : List.indexOf pal[s] pal = s := by
  have hmem : pal[s] ∈ pal := List.getElem_mem _
  have h1 := List.getElem?_indexOf hmem
  have h2 := not_before_indexOf pal[s] pal s
  rcases Nat.lt_trichotomy (List.indexOf pal[s] pal) s with h | h | h
  · exact absurd (by rw [h1, List.getElem?_eq_getElem hs]) (hf _ h)
  · exact h
  · exact absurd (List.getElem?_eq_getElem hs) (h2 h)

/-- C3 (amended): when every cell state of the board lies in `[0, cells_count)` and is the
first palette index of its colour, saving succeeds and loading the saved image with the
same palette returns normally with every grid cell equal to the original. -/
theorem save_load_round_trip (ROWS COLS : Nat) (board target : Cells) (cells_count : Int)
    (cells_color : List Nat)
    (hlen : (cells_color.length : Int) = cells_count)
    (hint8 : ∀ i, -128 ≤ board i ∧ board i ≤ 127)
    (hstate : ∀ row < ROWS, ∀ col < COLS,
      0 ≤ board (iter_cell COLS col row) ∧ board (iter_cell COLS col row) < cells_count ∧
      first_entry cells_color (board (iter_cell COLS col row)).toNat) :
    ∃ img, life_save_board_to_image ROWS COLS board cells_count cells_color = some img ∧
      img.w = COLS ∧ img.h = ROWS ∧ img.n = 4 ∧ img.data.length = ROWS * COLS ∧
      (life_load_board_from_image ROWS COLS target (some img) cells_count cells_color).1
        = .loaded ∧
      ∀ row < ROWS, ∀ col < COLS,
        (life_load_board_from_image ROWS COLS target (some img) cells_count cells_color).2
          (iter_cell COLS col row) = board (iter_cell COLS col row) := by
  -- the state of flat cell `i`
  have hflat : ∀ i : Nat, i < ROWS * COLS →
      0 ≤ board (i : Int) ∧ (board (i : Int)).toNat < cells_color.length ∧
      first_entry cells_color (board (i : Int)).toNat := by
    intro i hi
    obtain ⟨h1, h2, h3⟩ := flat_index ROWS COLS i hi
    have := hstate _ h1 _ h2
    rw [h3] at this
    refine ⟨this.1, ?_, this.2.2⟩
    have := this.2.1
    omega
  have hpix : ∀ i : Nat, i < ROWS * COLS →
      palette_at cells_color (board (i : Int)) = some (cells_color.getD (board (i : Int)).toNat 0) := by
    intro i hi
    obtain ⟨h0, h1, _⟩ := hflat i hi
    simp only [palette_at, show ¬ board (i : Int) < 0 by omega, if_false, List.get?_eq_getElem?,
      List.getElem?_eq_getElem h1, List.getD_eq_getElem?_getD, Option.getD_some]
  have hsave := save_eq ROWS COLS board cells_count cells_color
    (fun i hi => by rw [hpix i hi]; rfl)
  refine ⟨_, hsave, rfl, rfl, rfl, by simp, ?_⟩
  have hload : life_load_board_from_image ROWS COLS target
      (some { w := COLS, h := ROWS, n := 4,
              data := (List.range (ROWS * COLS)).map (saved_pixel board cells_color) })
      cells_count cells_color =
      load_list cells_count cells_color 0
        ((List.range (ROWS * COLS)).map (saved_pixel board cells_color)) target := by
    simp only [life_load_board_from_image, ge_iff_le, le_refl, and_self, if_true]
    exact load_rows_eq_load_list ROWS COLS _ cells_count cells_color target (by simp)
  rw [hload]
  have hsp : ∀ i : Nat, i < ROWS * COLS →
      saved_pixel board cells_color i ∈ cells_color ∧
      List.indexOf (saved_pixel board cells_color i) cells_color = (board (i : Int)).toNat := by
    intro i hi
    obtain ⟨h0, h1, h2⟩ := hflat i hi
    have e : saved_pixel board cells_color i = cells_color[(board (i : Int)).toNat] := by
      simp only [saved_pixel, hpix i hi, Option.getD_some, List.getD_eq_getElem?_getD,
        List.getElem?_eq_getElem h1]
    rw [e]
    exact ⟨List.getElem_mem _, indexOf_of_first_entry cells_color _ h1 h2⟩
  have hall : ∀ px ∈ (List.range (ROWS * COLS)).map (saved_pixel board cells_color),
      search_palette cells_color cells_count px 256 0 =
        .found (List.indexOf px cells_color : Int) := by
    intro px hpx
    obtain ⟨i, hi, rfl⟩ := List.mem_map.mp hpx
    have hi' : i < ROWS * COLS := List.mem_range.mp hi
    obtain ⟨h0, h1, _⟩ := hflat i hi'
    obtain ⟨hm, hidx⟩ := hsp i hi'
    have h127 := (hint8 (i : Int)).2
    apply search_of_mem _ _ _ hm
    · rw [hidx]; omega
    · rw [hidx]; omega
  obtain ⟨hres, hcells, _⟩ := load_list_loaded cells_count cells_color _ 0 target hall
  refine ⟨hres, ?_⟩
  intro row hr col hc
  obtain ⟨hlt, hidx⟩ := grid_index ROWS COLS row col hr hc
  have := hcells (row * COLS + col) (by simpa using hlt)
  rw [hidx]
  simp only [Nat.zero_add] at this
  rw [this]
  simp only [List.getElem_map, List.getElem_range]
  rw [(hsp _ hlt).2]
  have := (hflat _ hlt).1
  omega

/-- The instance for a 1 x 2 board in state 1 and the palette
`[7, 9]`. -/
theorem save_load_round_trip_witness :
    ∃ img, life_save_board_to_image 1 2 ones_board 2 [7, 9] = some img ∧
      img.w = 2 ∧ img.h = 1 ∧ img.n = 4 ∧ img.data.length = 1 * 2 ∧
      (life_load_board_from_image 1 2 zeros_board (some img) 2 [7, 9]).1 = .loaded ∧
      ∀ row < 1, ∀ col < 2,
        (life_load_board_from_image 1 2 zeros_board (some img) 2 [7, 9]).2
          (iter_cell ((2 : Nat) : Int) ((col : Nat) : Int) ((row : Nat) : Int))
          = ones_board (iter_cell ((2 : Nat) : Int) ((col : Nat) : Int) ((row : Nat) : Int)) :=
  save_load_round_trip 1 2 ones_board zeros_board 2 [7, 9] rfl
    (fun _ => by simp [ones_board])
    (fun row _ col _ => by
      refine ⟨by simp [ones_board], by simp [ones_board], ?_⟩
      exact first_entry_of_nodup [7, 9] (by decide) _ (by simp [ones_board]))

/-- C3, as stated, fails: with the palette `[5, 5]` a 1 x 1 board in state 1 is saved as
the pixel 5 and loaded back in state 0. -/
theorem round_trip_fails_on_repeated_colour :
    (∀ row < 1, ∀ col < 1, 0 ≤ ones_board (iter_cell 1 col row) ∧
      ones_board (iter_cell 1 col row) < 2) ∧
    life_save_board_to_image 1 1 ones_board 2 [5, 5]
      = some { w := 1, h := 1, n := 4, data := [5] } ∧
    (life_load_board_from_image 1 1 ones_board
      (life_save_board_to_image 1 1 ones_board 2 [5, 5]) 2 [5, 5]).1 = .loaded ∧
    (life_load_board_from_image 1 1 ones_board
      (life_save_board_to_image 1 1 ones_board 2 [5, 5]) 2 [5, 5]).2 (iter_cell 1 0 0) = 0 ∧
    ones_board (iter_cell 1 0 0) = 1 := by
  refine ⟨?_, by decide, by decide, by decide, by decide⟩
  intro row _ col _
  simp [ones_board]

/-- C6: on a 2 x 2 board, loading the 1 x 2 image `narrow_image` passes the assertions,
overwrites cell (0,1), which lies outside the image, with the index of pixel (1,0), and
then reads `data[2]`, outside the pixel array. -/
theorem load_of_smaller_image_goes_wrong :
    narrow_image.w ≤ 2 ∧ narrow_image.h ≤ 2 ∧ narrow_image.n = 4 ∧
    narrow_image.data.length = narrow_image.w * narrow_image.h ∧
    (life_load_board_from_image 2 2 zeros_board (some narrow_image) 2 [7, 9]).1 = .fault ∧
    (life_load_board_from_image 2 2 zeros_board (some narrow_image) 2 [7, 9]).2
      (iter_cell 2 1 0) = 1 ∧
    zeros_board (iter_cell 2 1 0) = 0 := by
  decide

/-- What the load does for an image of exactly the board's dimensions and a palette of at
most 127 entries: it stops with the unknown-colour error exactly when some pixel is in no
palette entry, reporting the first such pixel in row-major order; otherwise it returns
normally and every cell holds the least palette index whose colour is its pixel. -/
theorem load_full_image_outcome (ROWS COLS : Nat) (board : Cells) (img : Image)
    (cells_count : Int) (cells_color : List Nat)
    (hw : img.w = COLS) (hh : img.h = ROWS) (hn : img.n = 4)
    (hdata : img.data.length = ROWS * COLS)
    (hlen : (cells_color.length : Int) = cells_count) (h127 : cells_count ≤ 127) :
    ((∃ c, (life_load_board_from_image ROWS COLS board (some img) cells_count cells_color).1
        = .unknown_color c) ↔ ∃ px ∈ img.data, px ∉ cells_color) ∧
    (∀ c, (life_load_board_from_image ROWS COLS board (some img) cells_count cells_color).1
        = .unknown_color c ↔
      img.data.find? (fun px => decide (px ∉ cells_color)) = some c) ∧
    ((∀ px ∈ img.data, px ∈ cells_color) →
      (life_load_board_from_image ROWS COLS board (some img) cells_count cells_color).1
        = .loaded ∧
      ∀ row < ROWS, ∀ col < COLS, ∃ px, img.data[row * COLS + col]? = some px ∧
        (life_load_board_from_image ROWS COLS board (some img) cells_count cells_color).2
          (iter_cell COLS col row) = (List.indexOf px cells_color : Int) ∧
        cells_color[List.indexOf px cells_color]? = some px ∧
        ∀ j < List.indexOf px cells_color, cells_color[j]? ≠ some px) := by
  have hload : life_load_board_from_image ROWS COLS board (some img) cells_count cells_color =
      load_list cells_count cells_color 0 img.data board := by
    simp only [life_load_board_from_image, hn, hw, hh, ge_iff_le, le_refl, and_self, if_true]
    exact load_rows_eq_load_list ROWS COLS _ cells_count cells_color board hdata
  rw [hload]
  -- the case where every pixel is a palette colour
  have hgood : (∀ px ∈ img.data, px ∈ cells_color) →
      (load_list cells_count cells_color 0 img.data board).1 = .loaded ∧
      ∀ row < ROWS, ∀ col < COLS, ∃ px, img.data[row * COLS + col]? = some px ∧
        (load_list cells_count cells_color 0 img.data board).2
          (iter_cell COLS col row) = (List.indexOf px cells_color : Int) ∧
        cells_color[List.indexOf px cells_color]? = some px ∧
        ∀ j < List.indexOf px cells_color, cells_color[j]? ≠ some px := by
    intro hall
    have hfound : ∀ px ∈ img.data, search_palette cells_color cells_count px 256 0 =
        .found (List.indexOf px cells_color : Int) := by
      intro px hpx
      have hm := hall px hpx
      have hidx : List.indexOf px cells_color < cells_color.length := List.indexOf_lt_length.2 hm
      exact search_of_mem _ _ _ hm (by omega) (by omega)
    obtain ⟨hres, hcells, _⟩ := load_list_loaded cells_count cells_color _ 0 board hfound
    refine ⟨hres, ?_⟩
    intro row hr col hc
    obtain ⟨hlt, hidx⟩ := grid_index ROWS COLS row col hr hc
    have hlt' : row * COLS + col < img.data.length := by omega
    refine ⟨img.data[row * COLS + col], List.getElem?_eq_getElem hlt', ?_, ?_, ?_⟩
    · have := hcells (row * COLS + col) hlt'
      rw [hidx]
      simpa using this
    · exact List.getElem?_indexOf (hall _ (List.getElem_mem _))
    · exact fun j hj => not_before_indexOf _ _ j hj
  have hbad : ∀ c, img.data.find? (fun px => decide (px ∉ cells_color)) = some c →
      (load_list cells_count cells_color 0 img.data board).1 = .unknown_color c :=
    fun c hc => load_list_unknown cells_count cells_color hlen h127 img.data 0 board c hc
  have hiff : ∀ c, (load_list cells_count cells_color 0 img.data board).1 = .unknown_color c ↔
      img.data.find? (fun px => decide (px ∉ cells_color)) = some c := by
    intro c
    refine ⟨fun h => ?_, hbad c⟩
    cases hf : img.data.find? (fun px => decide (px ∉ cells_color)) with
    | none =>
      have hall : ∀ px ∈ img.data, px ∈ cells_color := by
        intro px hpx
        have := List.find?_eq_none.mp hf px hpx
        simpa using this
      rw [(hgood hall).1] at h
      exact absurd h (by simp)
    | some c1 =>
      rw [hbad c1 hf] at h
      injection h with h
      rw [h]
  refine ⟨?_, hiff, hgood⟩
  constructor
  · rintro ⟨c, hc⟩
    have := (hiff c).mp hc
    obtain ⟨hp, as, bs, hd, _⟩ := List.find?_eq_some.mp this
    exact ⟨c, by rw [hd]; simp, by simpa using hp⟩
  · rintro ⟨px, hpx, hno⟩
    cases hf : img.data.find? (fun px => decide (px ∉ cells_color)) with
    | none =>
      have := List.find?_eq_none.mp hf px hpx
      simp at this
      exact absurd this hno
    | some c => exact ⟨c, hbad c hf⟩

/-- The instance for a 1 x 2 board, the image `wide_image`
and the palette `[7, 9]`. -/
theorem load_full_image_outcome_witness :
    ((∃ c, (life_load_board_from_image 1 2 zeros_board (some wide_image) 2 [7, 9]).1
        = .unknown_color c) ↔ ∃ px ∈ wide_image.data, px ∉ [7, 9]) ∧
    (∀ c, (life_load_board_from_image 1 2 zeros_board (some wide_image) 2 [7, 9]).1
        = .unknown_color c ↔
      wide_image.data.find? (fun px => decide (px ∉ [7, 9])) = some c) ∧
    ((∀ px ∈ wide_image.data, px ∈ [7, 9]) →
      (life_load_board_from_image 1 2 zeros_board (some wide_image) 2 [7, 9]).1
        = .loaded ∧
      ∀ row < 1, ∀ col < 2, ∃ px, wide_image.data[row * 2 + col]? = some px ∧
        (life_load_board_from_image 1 2 zeros_board (some wide_image) 2 [7, 9]).2
          (iter_cell ((2 : Nat) : Int) ((col : Nat) : Int) ((row : Nat) : Int))
          = (List.indexOf px [7, 9] : Int) ∧
        [7, 9][List.indexOf px [7, 9]]? = some px ∧
        ∀ j < List.indexOf px [7, 9], [7, 9][j]? ≠ some px) :=
  load_full_image_outcome 1 2 zeros_board wide_image 2 [7, 9] rfl rfl rfl rfl rfl (by decide)

set_option maxRecDepth 100000 in
/-- C10: with the 128-entry palette `palette128` and a 1 x 1 image of the board's size
whose pixel 500 is in no palette entry, the load does not stop with the unknown-colour
error: the `int8_t` loop variable wraps from 127 to -128, the test `cell < cells_count`
still holds, and the search reads `cells_color[-128]`, outside the palette. -/
theorem load_with_128_colours_misses_unknown :
    odd_pixel_image.w = 1 ∧ odd_pixel_image.h = 1 ∧ odd_pixel_image.n = 4 ∧
    (palette128.length : Int) = 128 ∧
    (∃ px ∈ odd_pixel_image.data, px ∉ palette128) ∧
    (life_load_board_from_image 1 1 zeros_board (some odd_pixel_image) 128 palette128).1
      = .fault ∧
    ¬ ∃ c, (life_load_board_from_image 1 1 zeros_board (some odd_pixel_image) 128 palette128).1
      = .unknown_color c := by
  have h : (life_load_board_from_image 1 1 zeros_board (some odd_pixel_image) 128 palette128).1
      = .fault := by decide
  refine ⟨rfl, rfl, rfl, by decide, ⟨500, by decide, by decide⟩, h, ?_⟩
  rintro ⟨c, hc⟩
  rw [h] at hc
  exact absurd hc (by simp)

/-! ## Floating point: proofs -/

theorem ilog2_aux_spec : ∀ (j n acc : Nat), 0 < n → n < 2 ^ (2 ^ j) →
    ∃ r, ilog2_aux j n acc = acc + r ∧ 2 ^ r ≤ n ∧ n < 2 ^ (r + 1)
  | 0, n, acc, h0, h1 => by
    refine ⟨0, rfl, ?_, ?_⟩
    · simpa using h0
    · simpa using h1
  | j + 1, n, acc, h0, h1 => by
    have hP : 0 < 2 ^ (2 ^ j) := Nat.two_pow_pos _
    have hsq : 2 ^ (2 ^ (j + 1)) = 2 ^ (2 ^ j) * 2 ^ (2 ^ j) := by
      rw [← pow_add]; congr 1; rw [pow_succ]; omega
    unfold ilog2_aux
    by_cases hle : 2 ^ (2 ^ j) ≤ n
    · simp only [hle, if_true]
      have hq0 : 0 < n / 2 ^ (2 ^ j) := Nat.div_pos hle hP
      have hq1 : n / 2 ^ (2 ^ j) < 2 ^ (2 ^ j) := by
        apply Nat.div_lt_of_lt_mul
        rw [← hsq]; exact h1
      obtain ⟨r, hr, hlo, hhi⟩ := ilog2_aux_spec j (n / 2 ^ (2 ^ j)) (acc + 2 ^ j) hq0 hq1
      refine ⟨2 ^ j + r, by rw [hr]; omega, ?_, ?_⟩
      · rw [pow_add]
        calc 2 ^ (2 ^ j) * 2 ^ r ≤ 2 ^ (2 ^ j) * (n / 2 ^ (2 ^ j)) := Nat.mul_le_mul_left _ hlo
          _ ≤ n := Nat.mul_div_le n _
      · have h3 : n < 2 ^ (2 ^ j) * (n / 2 ^ (2 ^ j) + 1) := by
          have := Nat.lt_mul_div_succ n hP
          simpa [Nat.mul_comm] using this
        calc n < 2 ^ (2 ^ j) * (n / 2 ^ (2 ^ j) + 1) := h3
          _ ≤ 2 ^ (2 ^ j) * 2 ^ (r + 1) := Nat.mul_le_mul_left _ hhi
          _ = 2 ^ (2 ^ j + r + 1) := by rw [← pow_add]; congr 1
    · simp only [hle, if_false]
      exact ilog2_aux_spec j n acc h0 (by omega)

/-- `ilog2 n` is the position of the leading bit of `n`. -/
theorem ilog2_spec (n : Nat) (h0 : 0 < n) (h1 : n < 2 ^ 16384) :
    2 ^ ilog2 n ≤ n ∧ n < 2 ^ (ilog2 n + 1) := by
  obtain ⟨r, hr, hlo, hhi⟩ := ilog2_aux_spec 14 n 0 h0 (by simpa using h1)
  have : ilog2 n = r := by unfold ilog2; rw [hr]; omega
  rw [this]
  exact ⟨hlo, hhi⟩

theorem ilog2_zero : ilog2 0 = 0 := by decide

/-- The rounded magnitude is at most one quantum above the exact quotient. -/
theorem rne_le (prec quantum n d : Nat) :
    rne prec quantum n d ≤
      n / d + 2 ^ (max quantum (ilog2 (n / d) + 1 - prec)) := by
  unfold rne
  simp only []
  generalize 2 ^ max quantum (ilog2 (n / d) + 1 - prec) = E
  have hm : n / (d * E) * E ≤ n / d := by
    rw [← Nat.div_div_eq_div_mul]
    exact Nat.div_mul_le_self _ _
  split
  · rw [Nat.add_mul, Nat.one_mul]; omega
  · omega

theorem quantum_le (prec quantum x : Nat) (hp : 1 ≤ prec) (hx : x < 2 ^ 16384) :
    2 ^ (max quantum (ilog2 x + 1 - prec)) ≤ max (2 ^ quantum) x := by
  rcases Nat.eq_zero_or_pos x with h0 | h0
  · subst h0
    rw [ilog2_zero]
    have : 0 + 1 - prec = 0 := by omega
    rw [this]
    simp
  · rcases le_total quantum (ilog2 x + 1 - prec) with h | h
    · rw [max_eq_right h]
      have h1 : 2 ^ (ilog2 x + 1 - prec) ≤ 2 ^ ilog2 x :=
        Nat.pow_le_pow_right (by norm_num) (by omega)
      exact le_trans (le_trans h1 (ilog2_spec x h0 hx).1) (le_max_right _ _)
    · rw [max_eq_left h]
      exact le_max_left _ _

/-- What `rne` computes: with `E` the quantum chosen for `n / d`, the result is a multiple
`a * E` with `a <= 2^prec`, it is within half a quantum of `n / d`, and in a tie `a` is
even. The bound on `a` needs `n / d` in the range of `ilog2`. -/
theorem rne_is_nearest_even (prec quantum n d : Nat) (hd : 0 < d) :
    ∃ a : Nat,
      rne prec quantum n d = a * 2 ^ (max quantum (ilog2 (n / d) + 1 - prec)) ∧
      2 * (rne prec quantum n d * d) ≤ 2 * n + d * 2 ^ (max quantum (ilog2 (n / d) + 1 - prec)) ∧
      2 * n ≤ 2 * (rne prec quantum n d * d) + d * 2 ^ (max quantum (ilog2 (n / d) + 1 - prec)) ∧
      (2 * (n % (d * 2 ^ (max quantum (ilog2 (n / d) + 1 - prec))))
          = d * 2 ^ (max quantum (ilog2 (n / d) + 1 - prec)) → a % 2 = 0) ∧
      (n / d < 2 ^ 16384 → a ≤ 2 ^ prec) := by
  have hE : 0 < 2 ^ max quantum (ilog2 (n / d) + 1 - prec) := Nat.two_pow_pos _
  have hrange : n / d < 2 ^ 16384 →
      n / (d * 2 ^ max quantum (ilog2 (n / d) + 1 - prec)) < 2 ^ prec := by
    intro hr
    rw [← Nat.div_div_eq_div_mul]
    apply Nat.div_lt_of_lt_mul
    rw [← pow_add]
    rcases Nat.eq_zero_or_pos (n / d) with h0 | h0
    · rw [h0]; exact Nat.two_pow_pos _
    · exact lt_of_lt_of_le (ilog2_spec _ h0 hr).2 (Nat.pow_le_pow_right (by norm_num) (by omega))
  unfold rne
  simp only []
  generalize 2 ^ max quantum (ilog2 (n / d) + 1 - prec) = E at hE hrange ⊢
  have hden : 0 < d * E := Nat.mul_pos hd hE
  have hdm := Nat.div_add_mod n (d * E)
  have hr := Nat.mod_lt n hden
  have hmul : ∀ a : Nat, a * E * d = d * E * a := fun a => by ring
  split
  · rename_i hup
    refine ⟨n / (d * E) + 1, rfl, ?_, ?_, ?_, fun h => by have := hrange h; omega⟩
    · rw [hmul, Nat.mul_add, Nat.mul_one]; omega
    · rw [hmul, Nat.mul_add, Nat.mul_one]; omega
    · intro htie; omega
  · rename_i hup
    refine ⟨n / (d * E), rfl, ?_, ?_, ?_, fun h => by have := hrange h; omega⟩
    · rw [hmul]; omega
    · rw [hmul]; omega
    · intro htie; omega

/-! ### The timeout never falls below `NEXT_GEN_MIN_TIMEOUT` -/

theorem ilog2_aux_lower : ∀ (j n acc : Nat), 0 < n →
    ∃ r, ilog2_aux j n acc = acc + r ∧ 2 ^ r ≤ n
  | 0, n, acc, h0 => ⟨0, rfl, by simpa using h0⟩
  | j + 1, n, acc, h0 => by
    have hP : 0 < 2 ^ (2 ^ j) := Nat.two_pow_pos _
    unfold ilog2_aux
    by_cases hle : 2 ^ (2 ^ j) ≤ n
    · simp only [hle, if_true]
      obtain ⟨r, hr, hlo⟩ := ilog2_aux_lower j (n / 2 ^ (2 ^ j)) (acc + 2 ^ j)
        (Nat.div_pos hle hP)
      refine ⟨2 ^ j + r, by rw [hr]; omega, ?_⟩
      rw [pow_add]
      calc 2 ^ (2 ^ j) * 2 ^ r ≤ 2 ^ (2 ^ j) * (n / 2 ^ (2 ^ j)) := Nat.mul_le_mul_left _ hlo
        _ ≤ n := Nat.mul_div_le n _
    · simp only [hle, if_false]
      exact ilog2_aux_lower j n acc h0

theorem two_pow_ilog2_le (n : Nat) (h0 : 0 < n) : 2 ^ ilog2 n ≤ n := by
  obtain ⟨r, hr, hlo⟩ := ilog2_aux_lower 14 n 0 h0
  have : ilog2 n = r := by unfold ilog2; rw [hr]; omega
  rw [this]; exact hlo

/-- Rounding does not go below a multiple of the quantum that is at most the exact value. -/
theorem rne_ge_of_multiple (prec quantum n d a : Nat) (hd : 0 < d)
    (h : a * 2 ^ (max quantum (ilog2 (n / d) + 1 - prec)) * d ≤ n) :
    a * 2 ^ (max quantum (ilog2 (n / d) + 1 - prec)) ≤ rne prec quantum n d := by
  unfold rne
  simp only []
  have hE : 0 < 2 ^ max quantum (ilog2 (n / d) + 1 - prec) := Nat.two_pow_pos _
  generalize 2 ^ max quantum (ilog2 (n / d) + 1 - prec) = E at h hE ⊢
  have ha : a ≤ n / (d * E) := by
    rw [Nat.le_div_iff_mul_le (Nat.mul_pos hd hE)]
    calc a * (d * E) = a * E * d := by ring
      _ ≤ n := h
  have h1 : a * E ≤ n / (d * E) * E := Nat.mul_le_mul_right _ ha
  split
  · rw [Nat.add_mul, Nat.one_mul]; omega
  · exact h1

/-- Rounding does not go below a representable value that the exact value reaches: if
`c * 2^s` has at most `prec` significant bits, `s` is at least the format's smallest
exponent, and `c * 2^s <= n / d`, then `c * 2^s <= rne prec quantum n d`. -/
theorem rne_ge_of_representable (prec quantum n d c s : Nat) (hd : 0 < d) (hp : 1 ≤ prec)
    (hq : quantum ≤ s) (hc : c * 2 ^ s < 2 ^ (s + prec)) (hX : c * 2 ^ s ≤ n / d) :
    c * 2 ^ s ≤ rne prec quantum n d := by
  rcases Nat.eq_zero_or_pos (n / d) with h0 | h0
  · have : c * 2 ^ s = 0 := by omega
    rw [this]; exact Nat.zero_le _
  have hnd : n / d * d ≤ n := Nat.div_mul_le_self n d
  by_cases hcase : ilog2 (n / d) + 1 - prec ≤ s
  · -- the quantum divides `2^s`
    have he : max quantum (ilog2 (n / d) + 1 - prec) ≤ s := max_le hq hcase
    obtain ⟨t, ht⟩ := Nat.exists_eq_add_of_le he
    have hmul : c * 2 ^ s = c * 2 ^ t * 2 ^ max quantum (ilog2 (n / d) + 1 - prec) := by
      conv_lhs => rw [ht]
      rw [pow_add]; ring
    have := rne_ge_of_multiple prec quantum n d (c * 2 ^ t) hd (by
      rw [← hmul]
      exact le_trans (Nat.mul_le_mul_right _ hX) hnd)
    rw [hmul]; exact this
  · -- the leading power of two is a multiple of the quantum and exceeds `c * 2^s`
    have hL : s + prec ≤ ilog2 (n / d) := by omega
    have he : max quantum (ilog2 (n / d) + 1 - prec) ≤ ilog2 (n / d) :=
      max_le (by omega) (by omega)
    obtain ⟨t, ht⟩ := Nat.exists_eq_add_of_le he
    have hpow : 2 ^ ilog2 (n / d) = 2 ^ t * 2 ^ max quantum (ilog2 (n / d) + 1 - prec) := by
      conv_lhs => rw [ht]
      rw [pow_add]; ring
    have h2 := two_pow_ilog2_le (n / d) h0
    have := rne_ge_of_multiple prec quantum n d (2 ^ t) hd (by
      rw [← hpow]
      exact le_trans (Nat.mul_le_mul_right _ h2) hnd)
    rw [← hpow] at this
    have h3 : 2 ^ (s + prec) ≤ 2 ^ ilog2 (n / d) := Nat.pow_le_pow_right (by norm_num) hL
    omega

theorem min_le_round32 (n d : Nat) (hd : 0 < d) (hX : 9007199 * 2 ^ 1020 ≤ n / d) :
    Flt.le (.fin false (9007199 * 2 ^ 1020)) (Flt.round binary32 false n d) = true := by
  have h := rne_ge_of_representable 24 925 n d 9007199 1020 hd (by norm_num) (by norm_num)
    (by decide) hX
  unfold Flt.round
  simp only [binary32]
  split
  · rfl
  · simp only [Flt.le, signed_units, Bool.false_eq_true, if_false, decide_eq_true_eq]
    exact_mod_cast h

theorem le_fmaxf_right (x : Flt) (k : Nat) :
    Flt.le (.fin false k) (fmaxf x (.fin false k)) = true := by
  cases x with
  | nan => simp [fmaxf, Flt.le]
  | inf b =>
    cases b <;> simp [fmaxf, Flt.lt, Flt.le]
  | fin s m =>
    simp only [fmaxf]
    by_cases h : Flt.lt (.fin s m) (.fin false k) = true
    · rw [if_pos h]
      simp [Flt.le]
    · rw [if_neg h]
      simp only [Flt.lt, decide_eq_true_eq, not_lt] at h
      simp only [Flt.le, decide_eq_true_eq]
      exact h

/-! ## Generation clock: proofs -/

theorem delta_time_sec_eq : DELTA_TIME_SEC = .fin false (8947849 * 2 ^ 1045) := by decide

theorem min_timeout_float_eq :
    Flt.convert binary32 NEXT_GEN_MIN_TIMEOUT = .fin false (9007199 * 2 ^ 1020) := by decide

theorem ten_delta_eq : ten_delta = .fin false (11184811 * 2 ^ 1048) := by decide

/-- A timeout in the fast regime that respects the floor `NEXT_GEN_MIN_TIMEOUT` is a
finite positive float between the two bounds. -/
theorem fast_timeout_cases (t : Flt)
    (hmin : Flt.le (Flt.convert binary32 NEXT_GEN_MIN_TIMEOUT) t = true)
    (hfast : Flt.le DELTA_TIME_SEC t = false) :
    ∃ m : Nat, t = .fin false m ∧ 9007199 * 2 ^ 1020 ≤ m ∧ m < 8947849 * 2 ^ 1045 := by
  rw [min_timeout_float_eq] at hmin
  rw [delta_time_sec_eq] at hfast
  cases t with
  | nan => simp [Flt.le] at hmin
  | inf b =>
    cases b
    · simp [Flt.le] at hfast
    · simp [Flt.le] at hmin
  | fin s m =>
    cases s
    · refine ⟨m, rfl, ?_, ?_⟩
      · simp only [Flt.le, signed_units, decide_eq_true_eq, Bool.false_eq_true, if_false] at hmin
        exact_mod_cast hmin
      · simp only [Flt.le, signed_units, decide_eq_false_iff_not, not_le, Bool.false_eq_true,
          if_false] at hfast
        exact_mod_cast hfast
    · exfalso
      simp only [Flt.le, signed_units, decide_eq_true_eq] at hmin
      have : (0 : Int) < ((9007199 * 2 ^ 1020 : Nat) : Int) := by positivity
      simp only [Bool.false_eq_true, if_false, if_true] at hmin
      omega


/-- When the rounding error is at most one (`E <= 2 * U` with half of `E` the error bound
and `U` the unit), the integral parts of the rounded and of the exact quotient differ by at
most one. -/
theorem div_close (R m D U E : Nat) (hm : 0 < m) (hU : 0 < U) (hE : E ≤ 2 * U)
    (h1 : 2 * (R * m) ≤ 2 * (D * U) + m * E) (h2 : 2 * (D * U) ≤ 2 * (R * m) + m * E) :
    R / U ≤ D / m + 1 ∧ D / m ≤ R / U + 1 := by
  have hmE : m * E ≤ m * (2 * U) := Nat.mul_le_mul_left m hE
  have hD : D < m * (D / m + 1) := Nat.lt_mul_div_succ D hm
  have hR : R < U * (R / U + 1) := Nat.lt_mul_div_succ R hU
  have hD1 : m * (D / m) ≤ D := Nat.mul_div_le D m
  have hR1 : U * (R / U) ≤ R := Nat.mul_div_le R U
  generalize D / m = q at *
  generalize R / U = r at *
  constructor
  · by_contra hc
    push_neg at hc
    have h3 : q + 2 ≤ r := by omega
    have h4 : U * (q + 2) ≤ R := le_trans (Nat.mul_le_mul_left U h3) hR1
    have h5 : U * (q + 2) * m ≤ R * m := Nat.mul_le_mul_right m h4
    have h6 : D * U < m * (q + 1) * U := Nat.mul_lt_mul_of_pos_right hD hU
    nlinarith
  · by_contra hc
    push_neg at hc
    have h3 : r + 2 ≤ q := by omega
    have h4 : m * (r + 2) ≤ D := le_trans (Nat.mul_le_mul_left m h3) hD1
    have h5 : m * (r + 2) * U ≤ D * U := Nat.mul_le_mul_right U h4
    have h6 : R * m < U * (r + 1) * m := Nat.mul_lt_mul_of_pos_right hR hm
    nlinarith

/-- The floor of the exact quotient of two non-negative finite values is the quotient of
their magnitudes. -/
theorem floor_to_rat_div (a b : Nat) :
    ⌊(Flt.fin false a).to_rat / (Flt.fin false b).to_rat⌋ = ((a / b : Nat) : Int) := by
  have hU : ((one_units : Nat) : ℚ) ≠ 0 := by
    have : 0 < one_units := Nat.two_pow_pos _
    exact_mod_cast this.ne'
  simp only [Flt.to_rat, signed_units, Bool.false_eq_true, if_false, Int.cast_natCast]
  rw [div_div_div_cancel_right₀ hU, ← Int.natCast_floor_eq_floor (by positivity),
    Nat.floor_div_eq_div]

/-- In the fast regime the quotient `DELTA_TIME_SEC / timeout` is a finite float whose
integral part fits `size_t` and is within one of the integral part of the exact
quotient. -/
theorem fast_quotient (m : Nat) (h1 : 9007199 * 2 ^ 1020 ≤ m) :
    ∃ R : Nat, Flt.div binary32 DELTA_TIME_SEC (.fin false m) = .fin false R ∧
      R / one_units < 2 ^ 64 ∧
      R / one_units ≤ 8947849 * 2 ^ 1045 / m + 1 ∧
      8947849 * 2 ^ 1045 / m ≤ R / one_units + 1 := by
  have hm0 : m ≠ 0 := by
    intro h; rw [h] at h1; exact absurd h1 (by decide)
  have hmpos : 0 < m := Nat.pos_of_ne_zero hm0
  have h1u : 0 < one_units := Nat.two_pow_pos _
  have hx : 8947849 * 2 ^ 1045 * one_units / m ≤ 33333337 * 2 ^ 1074 := by
    calc 8947849 * 2 ^ 1045 * one_units / m
        ≤ 8947849 * 2 ^ 1045 * one_units / (9007199 * 2 ^ 1020) :=
          Nat.div_le_div_left h1 (by decide)
      _ ≤ 33333337 * 2 ^ 1074 := by decide
  have hx16 : 8947849 * 2 ^ 1045 * one_units / m < 2 ^ 16384 := lt_of_le_of_lt hx (by decide)
  have hR := rne_le 24 925 (8947849 * 2 ^ 1045 * one_units) m
  have hq := quantum_le 24 925 (8947849 * 2 ^ 1045 * one_units / m) (by norm_num) hx16
  have hmax : max (2 ^ 925) (8947849 * 2 ^ 1045 * one_units / m) ≤ 33333337 * 2 ^ 1074 :=
    max_le (by decide) hx
  have hbound : rne 24 925 (8947849 * 2 ^ 1045 * one_units) m ≤ 2 * (33333337 * 2 ^ 1074) := by
    omega
  -- the quantum of the quotient is at most 2
  have hE : 2 ^ max 925 (ilog2 (8947849 * 2 ^ 1045 * one_units / m) + 1 - 24)
      ≤ 2 * one_units := by
    have hlog : ilog2 (8947849 * 2 ^ 1045 * one_units / m) < 1099 := by
      rcases Nat.eq_zero_or_pos (8947849 * 2 ^ 1045 * one_units / m) with h0 | h0
      · rw [h0, ilog2_zero]; norm_num
      · have hlo := (ilog2_spec _ h0 hx16).1
        have hhi : 8947849 * 2 ^ 1045 * one_units / m < 2 ^ 1099 :=
          lt_of_le_of_lt hx (by decide)
        exact (Nat.pow_lt_pow_iff_right (by norm_num)).mp (lt_of_le_of_lt hlo hhi)
    have h2u : 2 * one_units = 2 ^ 1075 := by unfold one_units; rw [← pow_succ']
    rw [h2u]
    exact Nat.pow_le_pow_right (by norm_num) (max_le (by norm_num) (by omega))
  obtain ⟨a, _, hn1, hn2, _, _⟩ :=
    rne_is_nearest_even 24 925 (8947849 * 2 ^ 1045 * one_units) m hmpos
  have hclose := div_close _ m (8947849 * 2 ^ 1045) one_units _ hmpos h1u hE hn1 hn2
  refine ⟨rne 24 925 (8947849 * 2 ^ 1045 * one_units) m, ?_, ?_, hclose.1, hclose.2⟩
  · rw [delta_time_sec_eq]
    simp only [Flt.div, hm0, if_false, Flt.round, binary32, Bool.xor_false]
    rw [if_neg]
    exact not_lt.mpr (le_trans hbound (by decide))
  · apply Nat.div_lt_of_lt_mul
    exact lt_of_le_of_lt hbound (by decide)
theorem core_time_to_quit_nil (c : Core) :
    core_time_to_quit c [] =
      match core_tick { c with mouse_clicked := false, keyboard := List.replicate 256 false } with
      | some c2 => some (c2.quit, c2)
      | none => none := rfl

/-- C8 (amended): for an unpaused clock whose timeout is below `DELTA_TIME_SEC` (and not
below the floor `NEXT_GEN_MIN_TIMEOUT`), one tick adds `k`, the floor of the `float`
quotient `DELTA_TIME_SEC / timeout`, to the owed count; `k` is within one of the floor of
the exact quotient; cooldown and timeout are unchanged and the next tick adds the same `k`
again; with timeout `DELTA_TIME_SEC / 3` a frame yields 3. -/
theorem fast_regime_adds_floor (c : Core) (hp : c.pause = false)
    (hmin : Flt.le (Flt.convert binary32 NEXT_GEN_MIN_TIMEOUT) c.next_gen_timeout = true)
    (hfast : Flt.le DELTA_TIME_SEC c.next_gen_timeout = false) :
    ∃ (k : Nat) (c1 c2 : Core),
      (k : Int) = ⌊(Flt.div binary32 DELTA_TIME_SEC c.next_gen_timeout).to_rat⌋ ∧
      (k : Int) ≤ ⌊DELTA_TIME_SEC.to_rat / c.next_gen_timeout.to_rat⌋ + 1 ∧
      ⌊DELTA_TIME_SEC.to_rat / c.next_gen_timeout.to_rat⌋ ≤ (k : Int) + 1 ∧
      core_time_to_quit c [] = some (c.quit, c1) ∧
      c1.next_gen_count = (c.next_gen_count + k) % SIZE_MOD ∧
      c1.next_gen_cooldown = c.next_gen_cooldown ∧
      c1.next_gen_timeout = c.next_gen_timeout ∧
      core_time_to_quit (core_next_gen_count c1).2 [] = some (c.quit, c2) ∧
      c2.next_gen_count = k ∧
      c2.next_gen_cooldown = c.next_gen_cooldown ∧
      c2.next_gen_timeout = c.next_gen_timeout ∧
      (clock_frame (clock_state false third_delta third_delta 0) []).map Prod.fst = some 3 := by
  obtain ⟨m, ht, h1, _⟩ := fast_timeout_cases c.next_gen_timeout hmin hfast
  obtain ⟨R, hdiv, hR, hc1, hc2⟩ := fast_quotient m h1
  have hfloor : ⌊DELTA_TIME_SEC.to_rat / c.next_gen_timeout.to_rat⌋
      = ((8947849 * 2 ^ 1045 / m : Nat) : Int) := by
    rw [ht, delta_time_sec_eq]
    exact floor_to_rat_div _ _
  have hk : to_size_t (floorf (Flt.div binary32 DELTA_TIME_SEC c.next_gen_timeout))
      = some (R / one_units) := by
    rw [ht, hdiv]
    have h1u : 0 < one_units := Nat.two_pow_pos _
    simp only [floorf, to_size_t, Nat.mul_div_cancel _ h1u, hR, if_true]
  have hlt : R / one_units < SIZE_MOD := hR
  refine ⟨R / one_units,
    { c with mouse_clicked := false, keyboard := List.replicate 256 false,
             next_gen_count := (c.next_gen_count + R / one_units) % SIZE_MOD },
    { c with mouse_clicked := false, keyboard := List.replicate 256 false,
             next_gen_count := (0 + R / one_units) % SIZE_MOD },
    ?_, ?_, ?_, ?_, ?_, ?_, ?_, ?_, ?_, ?_, ?_, by decide⟩
  · rw [ht, hdiv]
    simp only [Flt.to_rat, signed_units, Bool.false_eq_true, if_false, Int.cast_natCast]
    rw [← Int.natCast_floor_eq_floor (by positivity), Nat.floor_div_eq_div]
  · rw [hfloor]; exact_mod_cast hc1
  · rw [hfloor]; exact_mod_cast hc2
  · rw [core_time_to_quit_nil]
    simp only [core_tick, hp, hfast, hk, Bool.not_false, if_true, Bool.false_eq_true, if_false]
  · rfl
  · rfl
  · rfl
  · rw [core_time_to_quit_nil]
    simp only [core_tick, core_next_gen_count, hp, hfast, hk, Bool.not_false, if_true,
      Bool.false_eq_true, if_false]
  · show (0 + R / one_units) % SIZE_MOD = R / one_units
    rw [Nat.zero_add, Nat.mod_eq_of_lt hlt]
  · rfl
  · rfl

/-- The instance for the clock with timeout `DELTA_TIME_SEC / 3`. -/
theorem fast_regime_adds_floor_witness :
    ∃ (k : Nat) (c1 c2 : Core),
      (k : Int) = ⌊(Flt.div binary32 DELTA_TIME_SEC
        (clock_state false third_delta third_delta 0).next_gen_timeout).to_rat⌋ ∧
      (k : Int) ≤ ⌊DELTA_TIME_SEC.to_rat
        / (clock_state false third_delta third_delta 0).next_gen_timeout.to_rat⌋ + 1 ∧
      ⌊DELTA_TIME_SEC.to_rat
        / (clock_state false third_delta third_delta 0).next_gen_timeout.to_rat⌋ ≤ (k : Int) + 1 ∧
      core_time_to_quit (clock_state false third_delta third_delta 0) []
        = some ((clock_state false third_delta third_delta 0).quit, c1) ∧
      c1.next_gen_count
        = ((clock_state false third_delta third_delta 0).next_gen_count + k) % SIZE_MOD ∧
      c1.next_gen_cooldown = (clock_state false third_delta third_delta 0).next_gen_cooldown ∧
      c1.next_gen_timeout = (clock_state false third_delta third_delta 0).next_gen_timeout ∧
      core_time_to_quit (core_next_gen_count c1).2 []
        = some ((clock_state false third_delta third_delta 0).quit, c2) ∧
      c2.next_gen_count = k ∧
      c2.next_gen_cooldown = (clock_state false third_delta third_delta 0).next_gen_cooldown ∧
      c2.next_gen_timeout = (clock_state false third_delta third_delta 0).next_gen_timeout ∧
      (clock_frame (clock_state false third_delta third_delta 0) []).map Prod.fst = some 3 :=
  fast_regime_adds_floor (clock_state false third_delta third_delta 0) rfl (by decide) (by decide)

/-- C7 (amended): in the slow regime a tick without events leaves the timeout alone and
either adds one owed generation and resets the cooldown to the timeout (when the cooldown
less `DELTA_TIME_SEC` is at most 0) or adds none; with timeout and cooldown
`10 * DELTA_TIME_SEC` the first ten frames yield 0 and the eleventh yields 1, resetting
the cooldown. -/
theorem slow_regime_at_most_one (c : Core) (hp : c.pause = false)
    (hslow : Flt.le DELTA_TIME_SEC c.next_gen_timeout = true) :
    (∃ c1, core_time_to_quit c [] = some (c.quit, c1) ∧
      c1.next_gen_timeout = c.next_gen_timeout ∧
      ((Flt.le (Flt.sub binary32 c.next_gen_cooldown DELTA_TIME_SEC) zero = true ∧
          c1.next_gen_count = (c.next_gen_count + 1) % SIZE_MOD ∧
          c1.next_gen_cooldown = c.next_gen_timeout) ∨
        (Flt.le (Flt.sub binary32 c.next_gen_cooldown DELTA_TIME_SEC) zero = false ∧
          c1.next_gen_count = c.next_gen_count ∧
          c1.next_gen_cooldown = Flt.sub binary32 c.next_gen_cooldown DELTA_TIME_SEC))) ∧
    (Flt.le DELTA_TIME_SEC ten_delta = true ∧
      (clock_frames 11 (clock_state false ten_delta ten_delta 0)).map Prod.fst
        = some [0, 0, 0, 0, 0, 0, 0, 0, 0, 0, 1] ∧
      (clock_frames 11 (clock_state false ten_delta ten_delta 0)).map
        (fun r => r.2.next_gen_cooldown) = some ten_delta) := by
  refine ⟨?_, by decide, by decide, by decide⟩
  rw [core_time_to_quit_nil]
  cases hle : Flt.le (Flt.sub binary32 c.next_gen_cooldown DELTA_TIME_SEC) zero with
  | true =>
    refine ⟨{ c with mouse_clicked := false, keyboard := List.replicate 256 false,
                     next_gen_cooldown := c.next_gen_timeout,
                     next_gen_count := (c.next_gen_count + 1) % SIZE_MOD },
      ?_, ?_, Or.inl ⟨rfl, ?_, ?_⟩⟩
    · simp only [core_tick, hp, hslow, hle, Bool.not_false, if_true]
    · rfl
    · rfl
    · rfl
  | false =>
    refine ⟨{ c with mouse_clicked := false, keyboard := List.replicate 256 false,
                     next_gen_cooldown := Flt.sub binary32 c.next_gen_cooldown DELTA_TIME_SEC },
      ?_, ?_, Or.inr ⟨rfl, ?_, ?_⟩⟩
    · simp only [core_tick, hp, hslow, hle, Bool.not_false, if_true, Bool.false_eq_true,
        if_false]
    · rfl
    · rfl
    · rfl

/-- C8, as stated, fails: in the frame in which `z` is pressed three times after
`core_begin` the timeout becomes `15199647 * 2^-53`, below `DELTA_TIME_SEC`, and the frame
adds 9876545 owed generations, while the floor of `DELTA_TIME_SEC / timeout` is 9876544
(the exact quotient `9876544.85...` rounds up to the `float` 9876545). The next frame adds
9876545 again. -/
theorem fast_regime_exceeds_exact_floor :
    (clock_frame started_clock three_z).map Prod.fst = some 9876545 ∧
    (clock_frame started_clock three_z).map (fun r => r.2.next_gen_timeout)
      = some slowed_timeout ∧
    (clock_frame started_clock three_z).map (fun r => r.2.pause) = some false ∧
    Flt.le DELTA_TIME_SEC slowed_timeout = false ∧
    (clock_frame (clock_state false slowed_timeout slowed_timeout 0) []).map Prod.fst
      = some 9876545 ∧
    ⌊DELTA_TIME_SEC.to_rat / slowed_timeout.to_rat⌋ = 9876544 := by
  refine ⟨by decide, by decide, by decide, by decide, by decide, ?_⟩
  rw [delta_time_sec_eq]
  unfold slowed_timeout
  rw [floor_to_rat_div]
  have : 8947849 * 2 ^ 1045 / (15199647 * 2 ^ 1021) = 9876544 := by decide
  rw [this]
  rfl

/-- The instance for the clock with timeout and cooldown
`10 * DELTA_TIME_SEC`. -/
theorem slow_regime_at_most_one_witness :
    (∃ c1, core_time_to_quit (clock_state false ten_delta ten_delta 0) []
        = some ((clock_state false ten_delta ten_delta 0).quit, c1) ∧
      c1.next_gen_timeout = (clock_state false ten_delta ten_delta 0).next_gen_timeout ∧
      ((Flt.le (Flt.sub binary32 (clock_state false ten_delta ten_delta 0).next_gen_cooldown
            DELTA_TIME_SEC) zero = true ∧
          c1.next_gen_count
            = ((clock_state false ten_delta ten_delta 0).next_gen_count + 1) % SIZE_MOD ∧
          c1.next_gen_cooldown = (clock_state false ten_delta ten_delta 0).next_gen_timeout) ∨
        (Flt.le (Flt.sub binary32 (clock_state false ten_delta ten_delta 0).next_gen_cooldown
            DELTA_TIME_SEC) zero = false ∧
          c1.next_gen_count = (clock_state false ten_delta ten_delta 0).next_gen_count ∧
          c1.next_gen_cooldown
            = Flt.sub binary32 (clock_state false ten_delta ten_delta 0).next_gen_cooldown
                DELTA_TIME_SEC))) ∧
    (Flt.le DELTA_TIME_SEC ten_delta = true ∧
      (clock_frames 11 (clock_state false ten_delta ten_delta 0)).map Prod.fst
        = some [0, 0, 0, 0, 0, 0, 0, 0, 0, 0, 1] ∧
      (clock_frames 11 (clock_state false ten_delta ten_delta 0)).map
        (fun r => r.2.next_gen_cooldown) = some ten_delta) :=
  slow_regime_at_most_one (clock_state false ten_delta ten_delta 0) rfl (by decide)

/-- C7, as stated, fails: with timeout and cooldown `10 * DELTA_TIME_SEC` the tenth frame
yields 0 owed generations, because ten `float` subtractions of `DELTA_TIME_SEC` leave a
cooldown of `3 * 2^-28`, which is above zero. -/
theorem tenth_frame_owes_nothing :
    ten_delta = Flt.mul binary32 (float_of_int 10) DELTA_TIME_SEC ∧
    (clock_frames 10 (clock_state false ten_delta ten_delta 0)).map Prod.fst
      = some [0, 0, 0, 0, 0, 0, 0, 0, 0, 0] ∧
    (clock_frames 10 (clock_state false ten_delta ten_delta 0)).map
      (fun r => r.2.next_gen_cooldown) = some (.fin false (3 * 2 ^ 1046)) := by
  refine ⟨rfl, by decide, by decide⟩

/-- Two clock states that differ at most in `mouse_clicked` and `keyboard`. -/
theorem core_time_to_quit_congr (c d : Core) (events : List Event)
    (h1 : d.quit = c.quit) (h2 : d.pause = c.pause)
    (h3 : d.next_gen_cooldown = c.next_gen_cooldown)
    (h4 : d.next_gen_timeout = c.next_gen_timeout)
    (h5 : d.next_gen_count = c.next_gen_count)
    (h6 : d.mouse_x = c.mouse_x) (h7 : d.mouse_y = c.mouse_y) :
    core_time_to_quit d events = core_time_to_quit c events := by
  cases c; cases d
  simp only at h1 h2 h3 h4 h5 h6 h7
  subst h1 h2 h3 h4 h5 h6 h7
  rfl

theorem core_time_to_quit_paused (c : Core) (hp : c.pause = true) :
    core_time_to_quit c [] =
      some (c.quit, { c with mouse_clicked := false, keyboard := List.replicate 256 false }) := by
  rw [core_time_to_quit_nil]
  simp only [core_tick, hp, Bool.not_true, Bool.false_eq_true, if_false]

theorem core_ticks_paused : ∀ (n : Nat) (c : Core), c.pause = true →
    ∃ c1, core_ticks n c = some c1 ∧ c1.quit = c.quit ∧ c1.pause = c.pause ∧
      c1.next_gen_cooldown = c.next_gen_cooldown ∧ c1.next_gen_timeout = c.next_gen_timeout ∧
      c1.next_gen_count = c.next_gen_count ∧ c1.mouse_x = c.mouse_x ∧ c1.mouse_y = c.mouse_y
  | 0, c, _ => ⟨c, rfl, rfl, rfl, rfl, rfl, rfl, rfl, rfl⟩
  | n + 1, c, hp => by
    obtain ⟨c1, h, h1, h2, h3, h4, h5, h6, h7⟩ := core_ticks_paused n
      { c with mouse_clicked := false, keyboard := List.replicate 256 false } hp
    refine ⟨c1, ?_, h1, h2, h3, h4, h5, h6, h7⟩
    simp only [core_ticks, core_time_to_quit_paused c hp]
    exact h

theorem clock_frames_paused : ∀ (n : Nat) (c : Core), c.pause = true → c.next_gen_count = 0 →
    ∃ c1, clock_frames n c = some (List.replicate n 0, c1) ∧ c1.quit = c.quit ∧
      c1.pause = c.pause ∧
      c1.next_gen_cooldown = c.next_gen_cooldown ∧ c1.next_gen_timeout = c.next_gen_timeout ∧
      c1.next_gen_count = c.next_gen_count ∧ c1.mouse_x = c.mouse_x ∧ c1.mouse_y = c.mouse_y
  | 0, c, _, _ => ⟨c, rfl, rfl, rfl, rfl, rfl, rfl, rfl, rfl⟩
  | n + 1, c, hp, h0 => by
    obtain ⟨c1, h, h1, h2, h3, h4, h5, h6, h7⟩ := clock_frames_paused n
      { c with mouse_clicked := false, keyboard := List.replicate 256 false,
               next_gen_count := 0 } hp rfl
    refine ⟨c1, ?_, h1, h2, h3, h4, by rw [h5, h0], h6, h7⟩
    simp only [clock_frames, clock_frame, core_time_to_quit_paused c hp, core_next_gen_count, h0,
      h]
    rfl

/-- C9: while paused, `n` ticks without events leave the owed count, the cooldown and the
timeout unchanged; when the owed count was consumed before (it is 0), each of `n` paused
frames yields 0 owed generations; and the frame that follows, whatever its events (the
unpausing key press among them), does exactly what it would have done without the `n`
paused frames. -/
theorem pause_freezes_clock (c : Core) (n : Nat) (events : List Event) (hp : c.pause = true) :
    (∃ c1, core_ticks n c = some c1 ∧ c1.pause = true ∧
      c1.next_gen_count = c.next_gen_count ∧
      c1.next_gen_cooldown = c.next_gen_cooldown ∧
      c1.next_gen_timeout = c.next_gen_timeout ∧
      core_time_to_quit c1 events = core_time_to_quit c events) ∧
    (c.next_gen_count = 0 →
      ∃ c2, clock_frames n c = some (List.replicate n 0, c2) ∧ c2.pause = true ∧
        c2.next_gen_count = 0 ∧
        c2.next_gen_cooldown = c.next_gen_cooldown ∧
        c2.next_gen_timeout = c.next_gen_timeout ∧
        clock_frame c2 events = clock_frame c events) := by
  constructor
  · obtain ⟨c1, h, h1, h2, h3, h4, h5, h6, h7⟩ := core_ticks_paused n c hp
    exact ⟨c1, h, by rw [h2, hp], h5, h3, h4,
      core_time_to_quit_congr c c1 events h1 h2 h3 h4 h5 h6 h7⟩
  · intro h0
    obtain ⟨c2, h, h1, h2, h3, h4, h5, h6, h7⟩ := clock_frames_paused n c hp h0
    refine ⟨c2, h, by rw [h2, hp], by rw [h5, h0], h3, h4, ?_⟩
    simp only [clock_frame, core_time_to_quit_congr c c2 events h1 h2 h3 h4 h5 h6 h7]

/-- The instance for a paused clock, three frames and the
unpausing key press. -/
theorem pause_freezes_clock_witness :
    (∃ c1, core_ticks 3 (clock_state true ten_delta ten_delta 0) = some c1 ∧ c1.pause = true ∧
      c1.next_gen_count = (clock_state true ten_delta ten_delta 0).next_gen_count ∧
      c1.next_gen_cooldown = (clock_state true ten_delta ten_delta 0).next_gen_cooldown ∧
      c1.next_gen_timeout = (clock_state true ten_delta ten_delta 0).next_gen_timeout ∧
      core_time_to_quit c1 [Event.keydown SDLK_SPACE]
        = core_time_to_quit (clock_state true ten_delta ten_delta 0)
            [Event.keydown SDLK_SPACE]) ∧
    ((clock_state true ten_delta ten_delta 0).next_gen_count = 0 →
      ∃ c2, clock_frames 3 (clock_state true ten_delta ten_delta 0)
          = some (List.replicate 3 0, c2) ∧ c2.pause = true ∧
        c2.next_gen_count = 0 ∧
        c2.next_gen_cooldown = (clock_state true ten_delta ten_delta 0).next_gen_cooldown ∧
        c2.next_gen_timeout = (clock_state true ten_delta ten_delta 0).next_gen_timeout ∧
        clock_frame c2 [Event.keydown SDLK_SPACE]
          = clock_frame (clock_state true ten_delta ten_delta 0) [Event.keydown SDLK_SPACE]) :=
  pause_freezes_clock (clock_state true ten_delta ten_delta 0) 3 [Event.keydown SDLK_SPACE] rfl

theorem le_refl_fin (k : Nat) : Flt.le (.fin false k) (.fin false k) = true := by
  simp [Flt.le]

theorem min_le_slow_down (t : Flt) (h : Flt.le (.fin false (9007199 * 2 ^ 1020)) t = true) :
    Flt.le (.fin false (9007199 * 2 ^ 1020))
      (Flt.convert binary32 (Flt.mul binary64 t one_and_a_half)) = true := by
  cases t with
  | nan => simp [Flt.le] at h
  | inf b =>
    cases b
    · have : Flt.mul binary64 (.inf false) one_and_a_half = .inf false := by decide
      rw [this]; rfl
    · simp [Flt.le] at h
  | fin s m =>
    cases s
    · have hm : 9007199 * 2 ^ 1020 ≤ m := by
        simp only [Flt.le, signed_units, decide_eq_true_eq, Bool.false_eq_true, if_false] at h
        exact_mod_cast h
      have h1u : 0 < one_units := Nat.two_pow_pos _
      have hX : 9007199 * 2 ^ 1020 ≤ m * (3 * 2 ^ 1073) / one_units := by
        apply le_trans hm
        rw [Nat.le_div_iff_mul_le h1u]
        have : one_units = 2 * 2 ^ 1073 := by unfold one_units; rw [← pow_succ']
        rw [this]
        exact Nat.mul_le_mul_left m (Nat.mul_le_mul_right _ (by norm_num))
      have hR := rne_ge_of_representable 53 0 (m * (3 * 2 ^ 1073)) one_units 9007199 1020 h1u
        (by norm_num) (by norm_num) (by decide) hX
      simp only [Flt.mul, one_and_a_half, Flt.round, binary64, Bool.xor_false]
      split
      · rfl
      · simp only [Flt.convert]
        exact min_le_round32 _ 1 (by norm_num) (by rw [Nat.div_one]; exact hR)
    · exfalso
      simp only [Flt.le, signed_units, decide_eq_true_eq, Bool.false_eq_true, if_false,
        if_true] at h
      have : (0 : Int) < ((9007199 * 2 ^ 1020 : Nat) : Int) := by positivity
      omega

/-- The clock invariant of the spec, `timeout >= NEXT_GEN_MIN_TIMEOUT`: `core_begin`
establishes it and `core_time_to_quit` keeps it, whatever the events of the frame. -/
theorem timeout_floor_invariant (c : Core) (events : List Event) :
    Flt.le (Flt.convert binary32 NEXT_GEN_MIN_TIMEOUT) (core_begin c).next_gen_timeout = true ∧
    (Flt.le (Flt.convert binary32 NEXT_GEN_MIN_TIMEOUT) c.next_gen_timeout = true →
      ∀ r, core_time_to_quit c events = some r →
        Flt.le (Flt.convert binary32 NEXT_GEN_MIN_TIMEOUT) r.2.next_gen_timeout = true) := by
  rw [min_timeout_float_eq]
  constructor
  · show Flt.le _ (Flt.convert binary32 NEXT_GEN_INITIAL_TIMEOUT) = true
    unfold NEXT_GEN_INITIAL_TIMEOUT
    rw [min_timeout_float_eq]
    exact le_refl_fin _
  · intro h r hr
    have hkey : ∀ (d : Core) (sym : Int),
        Flt.le (.fin false (9007199 * 2 ^ 1020)) d.next_gen_timeout = true →
        Flt.le (.fin false (9007199 * 2 ^ 1020)) (core_key d sym).next_gen_timeout = true := by
      intro d sym hd
      unfold core_key
      split_ifs
      · exact hd
      · show Flt.le _ (fmaxf _ _) = true
        rw [min_timeout_float_eq]
        exact le_fmaxf_right _ _
      · exact min_le_slow_down _ hd
      · exact hd
    have hev : ∀ (d : Core) (e : Event),
        Flt.le (.fin false (9007199 * 2 ^ 1020)) d.next_gen_timeout = true →
        Flt.le (.fin false (9007199 * 2 ^ 1020)) (core_event d e).next_gen_timeout = true := by
      intro d e hd
      cases e with
      | quit => exact hd
      | keydown sym =>
        simp only [core_event]
        split_ifs
        · exact hkey d sym hd
        · exact hkey d sym hd
      | mousemotion x y => exact hd
      | mousebuttondown x y => exact hd
      | other => exact hd
    have hfold : ∀ (es : List Event) (d : Core),
        Flt.le (.fin false (9007199 * 2 ^ 1020)) d.next_gen_timeout = true →
        Flt.le (.fin false (9007199 * 2 ^ 1020))
          (es.foldl core_event d).next_gen_timeout = true := by
      intro es
      induction es with
      | nil => intro d hd; exact hd
      | cons e es ih => intro d hd; exact ih _ (hev d e hd)
    have htick : ∀ (d d2 : Core), core_tick d = some d2 →
        d2.next_gen_timeout = d.next_gen_timeout := by
      intro d d2 hd
      simp only [core_tick] at hd
      split_ifs at hd
      · cases hd; rfl
      · cases hd; rfl
      · split at hd
        · cases hd; rfl
        · exact absurd hd (by simp)
      · cases hd; rfl
    unfold core_time_to_quit at hr
    simp only [] at hr
    split at hr
    · rename_i c2 hc2
      injection hr with hr
      rw [← hr]
      show Flt.le _ c2.next_gen_timeout = true
      rw [htick _ _ hc2]
      exact hfold events _ h
    · exact absurd hr (by simp)

/-! ## Simulation loop: proofs -/

theorem life_go_edits_square (COLS : Int) (l : Life) :
    (life_go_edits COLS l).square = l.square ∧ (life_go_edits COLS l).rule = l.rule ∧
    (life_go_edits COLS l).board_current = l.board_current := by
  simp only [life_go_edits]
  split_ifs <;> exact ⟨rfl, rfl, rfl⟩

theorem life_advance_spec (rule : Life_Rule) (l : Life) :
    (life_advance rule l).board_current = 1 - l.board_current ∧
    (life_advance rule l).boards (1 - l.board_current)
      = (rule (l.boards l.board_current) (l.boards (1 - l.board_current))).2 ∧
    (life_advance rule l).boards l.board_current
      = (rule (l.boards l.board_current) (l.boards (1 - l.board_current))).1 ∧
    (life_advance rule l).square = l.square ∧ (life_advance rule l).rule = l.rule := by
  refine ⟨rfl, ?_, ?_, rfl, rfl⟩
  · simp [life_advance]
  · have hne : l.board_current ≠ 1 - l.board_current := by omega
    simp [life_advance, Function.update_noteq hne]

theorem life_advance_iterate_current (rule : Life_Rule) : ∀ (n : Nat) (l : Life),
    ((life_advance rule)^[2 * n] l).board_current = l.board_current
  | 0, l => rfl
  | n + 1, l => by
    have e : 2 * (n + 1) = 2 * n + 1 + 1 := by ring
    rw [e, Function.iterate_succ_apply, Function.iterate_succ_apply,
      life_advance_iterate_current rule n]
    show 1 - (1 - l.board_current) = l.board_current
    omega

/-- C5 (amended): in a frame whose consume call returns `k`, the rule is applied
`(k * 30) mod 2^64` times (30 times per owed generation), each application reading
`boards[board_current]`, writing `boards[1 - board_current]` and flipping
`board_current`; the consume call returns the clock's owed count and resets it. -/
theorem life_go_applies_rule_30_times_per_generation (COLS : Int) (l : Life)
    (rule : Life_Rule) (k : Nat)
    (hrule : l.rule = some rule) (hk : (square_next_gen_count l.square).1 = k) :
    k = l.square.core.next_gen_count ∧
    life_go_frame COLS l =
      (life_advance rule)^[(k * 30) % 2 ^ 64]
        { life_go_edits COLS l with square := (square_next_gen_count l.square).2 } ∧
    (k * 30 < 2 ^ 64 → (k * 30) % 2 ^ 64 = 30 * k) ∧
    (square_next_gen_count l.square).2.core.next_gen_count = 0 ∧
    (∀ s : Life,
      (life_advance rule s).board_current = 1 - s.board_current ∧
      (life_advance rule s).boards (1 - s.board_current)
        = (rule (s.boards s.board_current) (s.boards (1 - s.board_current))).2 ∧
      (life_advance rule s).boards s.board_current
        = (rule (s.boards s.board_current) (s.boards (1 - s.board_current))).1) ∧
    (life_go_frame COLS l).board_current = l.board_current := by
  obtain ⟨hsq, hr, hcur⟩ := life_go_edits_square COLS l
  have hframe : life_go_frame COLS l =
      (life_advance rule)^[(k * 30) % 2 ^ 64]
        { life_go_edits COLS l with square := (square_next_gen_count l.square).2 } := by
    unfold life_go_frame life_go_generations
    have hr1 : (life_go_edits COLS l).rule = some rule := hr.trans hrule
    rw [hr1]
    simp only [hsq, hk, life_iterations, SIZE_MOD, hr1]
  refine ⟨hk.symm, hframe, ?_, rfl, ?_, ?_⟩
  rotate_left 2
  · have heven : (k * 30) % 2 ^ 64 = 2 * ((k * 30) % 2 ^ 64 / 2) := by omega
    rw [hframe, heven, life_advance_iterate_current]
    exact hcur
  · intro h
    rw [Nat.mod_eq_of_lt h, Nat.mul_comm]
  · intro s
    have := life_advance_spec rule s
    exact ⟨this.1, this.2.1, this.2.2.1⟩

/-- The instance for the counting
simulation with one owed generation. -/
theorem life_go_applies_rule_30_times_per_generation_witness :
    1 = (counting_life 1).square.core.next_gen_count ∧
    life_go_frame 3 (counting_life 1) =
      (life_advance counting_rule)^[(1 * 30) % 2 ^ 64]
        { life_go_edits 3 (counting_life 1) with
          square := (square_next_gen_count (counting_life 1).square).2 } ∧
    (1 * 30 < 2 ^ 64 → (1 * 30) % 2 ^ 64 = 30 * 1) ∧
    (square_next_gen_count (counting_life 1).square).2.core.next_gen_count = 0 ∧
    (∀ s : Life,
      (life_advance counting_rule s).board_current = 1 - s.board_current ∧
      (life_advance counting_rule s).boards (1 - s.board_current)
        = (counting_rule (s.boards s.board_current) (s.boards (1 - s.board_current))).2 ∧
      (life_advance counting_rule s).boards s.board_current
        = (counting_rule (s.boards s.board_current) (s.boards (1 - s.board_current))).1) ∧
    (life_go_frame 3 (counting_life 1)).board_current = (counting_life 1).board_current :=
  life_go_applies_rule_30_times_per_generation 3 (counting_life 1) counting_rule 1 rfl rfl

/-- C5, as stated, fails: in a frame whose consume call returns 1, the counting rule has
been applied 30 times (cell 0 of the current board holds 30 and not 1), and
`board_current` is back at 0 where a single application would leave 1. -/
theorem one_owed_generation_runs_thirty :
    (square_next_gen_count (counting_life 1).square).1 = 1 ∧
    (counting_life 1).boards (counting_life 1).board_current 0 = 0 ∧
    (life_go_frame 3 (counting_life 1)).boards
      (life_go_frame 3 (counting_life 1)).board_current 0 = 30 ∧
    (life_go_frame 3 (counting_life 1)).board_current = 0 ∧
    (life_advance counting_rule (counting_life 1)).boards
      (life_advance counting_rule (counting_life 1)).board_current 0 = 1 ∧
    (life_advance counting_rule (counting_life 1)).board_current = 1 := by
  decide


end Atomato
